import Mathlib

/-!
Verification of the Dada front-end validator and Bir data model.

This file shallowly embeds the validator of
`components/dada-validate/src/validate/validator.rs` and the basic-block
helpers of `components/dada-ir/src/code/bir.rs`.  Syntax trees are embedded
as an inductive type (the `syntax::ExprData` variants are exactly the arms
of the exhaustive match in `validate_expr_in_mode`); the validated-IR arena
is a list of `VExprData` indexed by `Nat` ids, with a parallel origins list,
mirroring the Rust interning tables.  All validator functions take a fuel
argument and are structurally recursive on it, so that concrete runs reduce
definitionally; theorems about an arm are stated at `fuel + 1` with the
recursive sub-results appearing at `fuel`.

Machine integers are modelled as `Nat`/`Int` with explicit range checks
(`u64`/`i64` parsing), strings as `List Char` (the Rust code does a few
byte-level operations — `count_bytes_in_common`, `&line[idx..]` — which this
model performs at char granularity; they coincide on ASCII input).
-/

set_option maxHeartbeats 1000000

namespace Dada

/-! ## Syntax model (from `syntax::ExprData` as matched by the validator) -/

/-- Binary/compound/parse-time operators, from `syntax::op::Op` as matched
exhaustively by `Validator::validated_op`. -/
inductive SynOp where
  | PlusEqual | MinusEqual | TimesEqual | DividedByEqual
  | EqualEqual | GreaterEqual | LessEqual
  | Plus | Minus | Times | DividedBy | LessThan | GreaterThan
  | ColonEqual | Colon | SemiColon | LeftAngle | RightAngle
  | Dot | Equal | RightArrow
deriving DecidableEq

/-- Operators of the validated IR (`validated::op::Op`), the image of
`validated_op`.  `ParserOnly` stands for the value of the Rust
`unreachable!` arm for parse-time operators; it cannot be produced by a
well-formed parse and exists only to keep the model total. -/
inductive VOp where
  | Plus | Minus | Times | DividedBy
  | EqualEqual | GreaterEqual | LessEqual | LessThan | GreaterThan
  | ParserOnly
deriving DecidableEq

/-- Permission specifiers (`storage::Specifier`), variants taken from the
exhaustive match in `place_to_expr`. -/
inductive Specifier where
  | My | Our | Leased | Shleased | Any
deriving DecidableEq

/-- Declaration attached to a `var` statement or a parameter
(`syntax::LocalVariableDecl`), fields as read by the validator
(`name`, `specifier`, `atomic`). -/
structure LocalVariableDecl where
  name : String
  specifier : Specifier
  atomic : Bool
deriving DecidableEq

/-- Syntax expressions.  One constructor per arm of the exhaustive match in
`validate_expr_in_mode` (the Rust match has no wildcard, so these are all
the variants of `syntax::ExprData`).  Interned `syntax::Expr` ids are
replaced by the trees themselves; words are `String`s.  An integer literal
carries its digit word and optional suffix word; a float literal carries
its integer and fractional words. -/
inductive SynExpr where
  | Dot (owner : SynExpr) (field : String)
  | Id (name : String)
  | BooleanLiteral (b : Bool)
  | IntegerLiteral (digits : String) (suffix : Option String)
  | FloatLiteral (intPart : String) (fracPart : String)
  | StringLiteral (s : String)
  | Await (future : SynExpr)
  | Call (func : SynExpr) (args : List (Option String × SynExpr))
  | Share (target : SynExpr)
  | Lease (target : SynExpr)
  | Shlease (target : SynExpr)
  | Give (target : SynExpr)
  | Var (decl : LocalVariableDecl) (initializer : SynExpr)
  | Parenthesized (inner : SynExpr)
  | Tuple (elements : List SynExpr)
  | If (cond : SynExpr) (thenE : SynExpr) (elseE : Option SynExpr)
  | Atomic (body : SynExpr)
  | Loop (body : SynExpr)
  | While (cond : SynExpr) (body : SynExpr)
  | Op (lhs : SynExpr) (op : SynOp) (rhs : SynExpr)
  | Unary (op : SynOp) (rhs : SynExpr)
  | OpEq (lhs : SynExpr) (op : SynOp) (rhs : SynExpr)
  | Assign (lhs : SynExpr) (rhs : SynExpr)
  | Error
  | Seq (exprs : List SynExpr)
  | Return (value : Option SynExpr)

/-- Named argument of a call (`syntax::NamedExprData`): optional label and
argument expression. -/
abbrev SynNamedExpr := Option String × SynExpr

/-! ## Validated IR model (from `validated::ExprData` et al. as constructed
by the validator) -/

/-- Validated expressions (`validated::ExprData`).  Child expressions,
places, target places, local variables and named expressions are arena ids
(`Nat`).  A float literal stores its (underscore-filtered) source text,
since binary floating point is outside this embedding; no claim depends on
the numeric value of a float. -/
inductive VExprData where
  | BooleanLiteral (b : Bool)
  | IntegerLiteral (v : Nat)
  | UnsignedIntegerLiteral (v : Nat)
  | SignedIntegerLiteral (v : Int)
  | FloatLiteral (text : String)
  | StringLiteral (s : String)
  | Await (future : Nat)
  | Call (func : Nat) (args : List Nat)
  | Share (e : Nat)
  | Lease (p : Nat)
  | Shlease (p : Nat)
  | Give (p : Nat)
  | Reserve (p : Nat)
  | Tuple (elements : List Nat)
  | If (cond : Nat) (thenE : Nat) (elseE : Nat)
  | Atomic (body : Nat)
  | Loop (body : Nat)
  | Break (fromExpr : Nat) (withValue : Nat)
  | Op (lhs : Nat) (op : VOp) (rhs : Nat)
  | Unary (op : VOp) (rhs : Nat)
  | Seq (exprs : List Nat)
  | Declare (vars : List Nat) (body : Nat)
  | AssignTemporary (lv : Nat) (e : Nat)
  | AssignFromPlace (target : Nat) (source : Nat)
  | Return (e : Nat)
  | Error
deriving DecidableEq

/-- Validated places (`validated::PlaceData`). -/
inductive VPlaceData where
  | LocalVariable (lv : Nat)
  | Function (f : Nat)
  | Class (c : Nat)
  | Intrinsic (i : Nat)
  | Dot (owner : Nat) (field : String)
deriving DecidableEq

/-- Validated target places (`validated::TargetPlaceData`). -/
inductive VTargetPlaceData where
  | LocalVariable (lv : Nat)
  | Dot (owner : Nat) (field : String)
deriving DecidableEq

/-- Validated named expressions (`validated::NamedExprData`). -/
structure VNamedExprData where
  name : Option String
  expr : Nat
deriving DecidableEq

/-- Validated local variables (`validated::LocalVariableData`). -/
structure LocalVariableData where
  name : Option String
  specifier : Option Specifier
  atomic : Bool
deriving DecidableEq

/-- Origins of local variables (`validated::LocalVariableOrigin`). -/
inductive LvOrigin where
  | Parameter (decl : LocalVariableDecl)
  | LocalVariable (decl : LocalVariableDecl)
  | Temporary (stxExpr : SynExpr)

/-- Origin of a validated expression / place / target place
(`validated::ExprOrigin`): the syntax expression it came from plus a
synthesized flag. -/
structure ExprOrigin where
  stxExpr : SynExpr
  synthesized : Bool

/-- Mirrors `ExprOrigin::real`. -/
def ExprOrigin.real (e : SynExpr) : ExprOrigin := ⟨e, false⟩

/-- Mirrors `ExprOrigin::synthesized`. -/
def ExprOrigin.synth (e : SynExpr) : ExprOrigin := ⟨e, true⟩

/-- Mirrors `IntoOrigin::synthesized` for `ExprOrigin` (keep the syntax
expression, force the flag). -/
def ExprOrigin.synthesize (o : ExprOrigin) : ExprOrigin := ⟨o.stxExpr, true⟩

/-- Mirrors `IntoOrigin::maybe_synthesized`: when the validator is in
synthesized mode every recorded origin is forced to synthesized. -/
def ExprOrigin.maybeSynthesized (o : ExprOrigin) (s : Bool) : ExprOrigin :=
  if s then o.synthesize else o

/-! ## Effects, return types, modes, scopes -/

/-- Modelled from the spec: the effect of a function is
`Default | Async | Atomic` (the exhaustive match in the `Await` arm of the
validator corroborates the three variants; `effect.rs` is not part of the
supplied sources). -/
inductive Effect where
  | Default | Async | Atomic
deriving DecidableEq

/-- Modelled from the spec: an `await` is permitted exactly when the
current effect is `Async` (`Effect::permits_await`). -/
def Effect.permits_await : Effect → Bool
  | .Async => true
  | _ => false

/-- Modelled from the spec: a function returns a value (`-> T`) or unit
(`return_type.rs` is not part of the supplied sources). -/
inductive ReturnTypeKind where
  | Value | Unit
deriving DecidableEq

/-- Expression modes (`ExprMode` in the validator). -/
inductive ExprMode where
  | Specifier (s : Specifier)
  | Reserve
deriving DecidableEq

/-- Mirrors `ExprMode::give()`. -/
def ExprMode.give : ExprMode := .Specifier .My

/-- Mirrors `ExprMode::leased()`. -/
def ExprMode.leased : ExprMode := .Specifier .Leased

/-- Modelled from the spec: what a name can resolve to in the lookup scope
(`name_lookup::Definition`; the variants are those matched by the
validator: local variables, functions, classes, intrinsics). -/
inductive Definition where
  | LocalVariable (lv : Nat)
  | Function (f : Nat)
  | Class (c : Nat)
  | Intrinsic (i : Nat)
deriving DecidableEq

/-- Modelled from the spec: one lexical scope level — a mapping from names
to definitions plus the list of local variables inserted at this level
(`name_lookup::Scope`; `name_lookup.rs` is not part of the supplied
sources). -/
structure Frame where
  bindings : List (String × Definition)
  inserted : List Nat
deriving DecidableEq

/-- Fresh subscope frame. -/
def Frame.empty : Frame := ⟨[], []⟩

/-- Modelled from the spec: a scope is a stack of frames, innermost first;
a subscope delegates lookups to its parent on miss. -/
abbrev Scope := List Frame

/-- Lookup resolves the innermost binding; shadowing is permitted. -/
def Scope.lookup : Scope → String → Option Definition
  | [], _ => none
  | f :: rest, n =>
    match f.bindings.find? (fun p => p.1 = n) with
    | some p => some p.2
    | none => Scope.lookup rest n

/-- Mirrors `Scope::insert`: bind a name to a local variable in the
innermost frame and record it in the inserted list. -/
def Scope.insert : Scope → String → Nat → Scope
  | [], _, _ => []
  | f :: rest, n, lv =>
    { bindings := (n, Definition.LocalVariable lv) :: f.bindings,
      inserted := f.inserted ++ [lv] } :: rest

/-- Mirrors `Scope::insert_temporary`: record a compiler temporary in the
inserted list without binding any name. -/
def Scope.insert_temporary : Scope → Nat → Scope
  | [], _ => []
  | f :: rest, lv => { f with inserted := f.inserted ++ [lv] } :: rest

/-! ## Diagnostics -/

/-- User-visible diagnostics emitted by the validator, one constructor per
`dada_ir::error!` site reachable from `validate_expr_in_mode` (span and
label plumbing is external to the supplied sources and not modelled; the
argument of `ParameterNameRequired` is the position of the offending
argument, standing in for its span). -/
inductive Diag where
  /-- "`{s}` is not a valid integer: {err}". -/
  | NotValidInteger (digits : String)
  /-- "`{s}` is not a valid integer suffxi" (sic, from the source). -/
  | NotValidIntegerSuffix (sfx : String)
  /-- "`{i}.{f}` is not a valid float: {err}". -/
  | NotValidFloat (intPart : String) (fracPart : String)
  /-- "await is not permitted inside atomic sections". -/
  | AwaitInsideAtomic
  /-- "await is not permitted outside of async functions". -/
  | AwaitOutsideAsync
  /-- "parameter name required", at the argument in the given position. -/
  | ParameterNameRequired (argIndex : Nat)
  /-- "you can only assign to local variables and fields, not arbitrary
  expressions". -/
  | AssignToArbitraryExpr
  /-- "you can only assign to local variables or fields, not {kind} like
  `{name}`". -/
  | AssignToNonVariable (name : String)
  /-- "can't find anything named `{name}`". -/
  | NameNotFound (name : String)
  /-- "return requires an expression". -/
  | ReturnRequiresExpression
  /-- "cannot return a value in this function". -/
  | CannotReturnValue
deriving DecidableEq

/-! ## Shared validator state -/

/-- The validated-IR interning tables plus origin side-tables plus the
diagnostic sink (`validated::Tables`, `validated::Origins`, and the
`dada_ir::error!` channel).  All are shared by subscopes in the Rust code,
so they are threaded together. -/
structure St where
  exprs : List VExprData
  exprOrigins : List ExprOrigin
  places : List VPlaceData
  placeOrigins : List ExprOrigin
  targetPlaces : List VTargetPlaceData
  targetPlaceOrigins : List ExprOrigin
  localVariables : List LocalVariableData
  localVariableOrigins : List LvOrigin
  namedExprs : List VNamedExprData
  namedExprOrigins : List SynNamedExpr
  diags : List Diag

/-- The empty tables. -/
def St.empty : St := ⟨[], [], [], [], [], [], [], [], [], [], []⟩

/-- Mirrors `Validator::add` for expressions: intern the data, then push
the (possibly synthesized-forced) origin. -/
def St.addExpr (st : St) (syn : Bool) (d : VExprData) (o : ExprOrigin) : Nat × St :=
  (st.exprs.length,
   { st with exprs := st.exprs ++ [d],
             exprOrigins := st.exprOrigins ++ [o.maybeSynthesized syn] })

/-- Mirrors `Validator::add` for places. -/
def St.addPlace (st : St) (syn : Bool) (d : VPlaceData) (o : ExprOrigin) : Nat × St :=
  (st.places.length,
   { st with places := st.places ++ [d],
             placeOrigins := st.placeOrigins ++ [o.maybeSynthesized syn] })

/-- Mirrors `Validator::add` for target places. -/
def St.addTargetPlace (st : St) (syn : Bool) (d : VTargetPlaceData) (o : ExprOrigin) :
    Nat × St :=
  (st.targetPlaces.length,
   { st with targetPlaces := st.targetPlaces ++ [d],
             targetPlaceOrigins := st.targetPlaceOrigins ++ [o.maybeSynthesized syn] })

/-- Mirrors `Validator::add` for local variables.  Forcing a
`LocalVariableOrigin` to synthesized is the identity on temporaries and a
programming-error panic otherwise in Rust; the validator's `synthesized`
flag is never set to `true` in the supplied sources, so the forcing is
modelled as the identity. -/
def St.addLocalVariable (st : St) (d : LocalVariableData) (o : LvOrigin) : Nat × St :=
  (st.localVariables.length,
   { st with localVariables := st.localVariables ++ [d],
             localVariableOrigins := st.localVariableOrigins ++ [o] })

/-- Mirrors `Validator::add` for named expressions (their origin is the
syntax named expression itself and cannot be forced to synthesized). -/
def St.addNamedExpr (st : St) (d : VNamedExprData) (o : SynNamedExpr) : Nat × St :=
  (st.namedExprs.length,
   { st with namedExprs := st.namedExprs ++ [d],
             namedExprOrigins := st.namedExprOrigins ++ [o] })

/-- Emit one diagnostic. -/
def St.addDiag (st : St) (d : Diag) : St := { st with diags := st.diags ++ [d] }

/-- Emit several diagnostics in order. -/
def St.addDiags (st : St) (ds : List Diag) : St := { st with diags := st.diags ++ ds }

/-- Mirrors `self.tables[loop_expr] = data`: overwrite an arena slot
(used by the `Loop`/`While` fix-up; origins are not touched). -/
def St.setExpr (st : St) (i : Nat) (d : VExprData) : St :=
  { st with exprs := st.exprs.set i d }

/-- Read an expression origin (`origins[expr]`); ids produced by the
validator are always in range, the default is arbitrary. -/
def St.exprOriginAt (st : St) (i : Nat) : ExprOrigin :=
  st.exprOrigins.getD i ⟨SynExpr.Error, true⟩

/-- Read interned expression data. -/
def St.exprAt (st : St) (i : Nat) : VExprData := st.exprs.getD i .Error

/-- Read interned place data. -/
def St.placeAt (st : St) (i : Nat) : VPlaceData := st.places.getD i (.LocalVariable 0)

/-- Read interned target-place data (`self.tables[validated_target_place]`). -/
def St.targetPlaceAt (st : St) (i : Nat) : VTargetPlaceData :=
  st.targetPlaces.getD i (.LocalVariable 0)

/-- Read interned named-expression data. -/
def St.namedExprAt (st : St) (i : Nat) : VNamedExprData :=
  st.namedExprs.getD i ⟨none, 0⟩

/-! ## Validator-local context -/

/-- The parts of `Validator` that a subscope forks rather than shares:
the current effect, the loop stack, the synthesized flag, plus the
function's return-type kind (constant over one validation). -/
structure Ctx where
  effect : Effect
  loopStack : List Nat
  synthesized : Bool
  returnKind : ReturnTypeKind

/-! ## String-literal helpers (`escape`, `support_escape`,
`count_bytes_in_common`, `convert_to_dada_string`) -/

/-- Rust `char::is_whitespace` (Unicode `White_Space`). -/
def rustIsWhitespace (c : Char) : Bool :=
  c = ' ' || c = '\t' || c = '\n' || (c = Char.ofNat 0x0B) || (c = Char.ofNat 0x0C) ||
  c = '\r' || (c = Char.ofNat 0x85) || (c = Char.ofNat 0xA0) || (c = Char.ofNat 0x1680) ||
  (0x2000 ≤ c.toNat && c.toNat ≤ 0x200A) || (c = Char.ofNat 0x2028) ||
  (c = Char.ofNat 0x2029) || (c = Char.ofNat 0x202F) || (c = Char.ofNat 0x205F) ||
  (c = Char.ofNat 0x3000)

/-- Rust `str::trim`: drop whitespace from both ends. -/
def trimChars (l : List Char) : List Char :=
  ((l.dropWhile rustIsWhitespace).reverse.dropWhile rustIsWhitespace).reverse

/-- Rust `str::split('\n')`: the pieces between newline characters (always
at least one piece). -/
def splitNl : List Char → List (List Char)
  | [] => [[]]
  | c :: rest =>
    let r := splitNl rest
    if c = '\n' then [] :: r
    else
      match r with
      | [] => [[c]]
      | h :: t => (c :: h) :: t

/-- Strip one trailing carriage return (used on pieces that were followed
by a newline, mirroring how `str::lines` treats `\r\n`). -/
def stripCr (l : List Char) : List Char :=
  if l.getLast? = some '\r' then l.dropLast else l

/-- Rust `str::lines`: split on `\n`, treat a `\r` immediately before a
`\n` as part of the line ending, and drop the final empty piece produced
by a trailing newline. -/
def rustLines (l : List Char) : List (List Char) :=
  let ps := splitNl l
  let init := ps.dropLast.map stripCr
  match ps.getLast? with
  | some [] => init
  | some last => init ++ [last]
  | none => []

/-- Join lines with `\n` (the `buf` accumulation loop of
`convert_to_dada_string`, which pushes a newline before every line except
the first). -/
def joinNl : List (List Char) → List Char
  | [] => []
  | [l] => l
  | l :: ls => l ++ '\n' :: joinNl ls

/-- Mirrors `count_bytes_in_common`, at char granularity: length of the
longest common prefix.  The Rust function runs on `as_bytes()`, so this
rendering is faithful only where no comparison stops inside a multibyte
character; the byte-faithful count is `countBytesCommon` over `strBytes`,
and `convertCharsBytes_ascii` proves the two agree on ASCII input. -/
def count_bytes_in_common : List Char → List Char → Nat
  | c1 :: t1, c2 :: t2 => if c1 = c2 then count_bytes_in_common t1 t2 + 1 else 0
  | _, _ => 0

/-- Mirrors `escape` (total where the Rust function panics on a non-escape
character, which its caller never passes). -/
def escape (ch : Char) : Char :=
  if ch = 'n' then '\n'
  else if ch = 't' then '\t'
  else if ch = 'r' then '\r'
  else ch

/-- Mirrors `support_escape`: rewrite the escape sequences
`\n \t \r \\ \"`; any other backslash passes through literally. -/
def support_escape : List Char → List Char
  | [] => []
  | [c] => if c = '\\' then ['\\'] else [c]
  | c :: d :: rest =>
    if c = '\\' then
      if d = 'n' || d = 'r' || d = 't' || d = '"' || d = '\\' then
        escape d :: support_escape rest
      else '\\' :: support_escape (d :: rest)
    else c :: support_escape (d :: rest)

/-- `line.trim().is_empty()`: a blank line. -/
def isBlank (l : List Char) : Bool := trimChars l = []

/-- Mirrors `convert_to_dada_string` on `List Char`: single-line strings
only get escape processing; multi-line strings are dedented by the common
indent of the non-blank lines with the first non-blank line's whitespace
prefix, then trimmed, then escape-processed.  This is the char-granularity
rendering: the Rust code counts the common indent in UTF-8 bytes and byte
slices each line (`&line[common_indent..]`), which can panic off a char
boundary; the byte-faithful model is `convertCharsBytes` below, and
`convertCharsBytes_ascii` proves the two agree on ASCII input. -/
def convertChars (s : List Char) : List Char :=
  if (rustLines s).length = 1 then support_escape s
  else
    match (rustLines s).filter (fun l => ¬ isBlank l) with
    | [] => []
    | firstLine :: otherLines =>
      let pfx := firstLine.takeWhile rustIsWhitespace
      let commonIndent :=
        ((otherLines.map (fun l => count_bytes_in_common pfx l)).min?).getD 0
      let buf := joinNl ((rustLines s).map
        (fun line => if isBlank line then line else line.drop commonIndent))
      support_escape (trimChars buf)

/-- Mirrors `convert_to_dada_string` on `String`. -/
def convert_to_dada_string (s : String) : String := ⟨convertChars s.data⟩

/-- UTF-8 encoding of one scalar value, as the bytes `str::as_bytes`
exposes for it. -/
def utf8Bytes (c : Char) : List Nat :=
  let n := c.toNat
  if n < 128 then [n]
  else if n < 2048 then [192 + n / 64, 128 + n % 64]
  else if n < 65536 then [224 + n / 4096, 128 + (n / 64) % 64, 128 + n % 64]
  else [240 + n / 262144, 128 + (n / 4096) % 64, 128 + (n / 64) % 64, 128 + n % 64]

/-- The UTF-8 bytes of a char sequence (`str::as_bytes`). -/
def strBytes (l : List Char) : List Nat := (l.map utf8Bytes).flatten

/-- Mirrors `count_bytes_in_common` exactly: longest common prefix of two
byte sequences. -/
def countBytesCommon : List Nat → List Nat → Nat
  | c1 :: t1, c2 :: t2 => if c1 = c2 then countBytesCommon t1 t2 + 1 else 0
  | _, _ => 0

/-- Rust byte slicing `&line[k..]` on a char-list rendering of the line:
drop whole characters worth `k` bytes in total; `none` is the panic on an
index that is not a character boundary (or lies past the end). -/
def byteDrop : List Char → Nat → Option (List Char)
  | l, 0 => some l
  | [], _ + 1 => none
  | c :: rest, k + 1 =>
    if (utf8Bytes c).length ≤ k + 1 then byteDrop rest (k + 1 - (utf8Bytes c).length)
    else none

/-- The dedent loop of `convert_to_dada_string` at byte fidelity: blank
lines are pushed unchanged, every other line loses its first `common`
bytes; `none` propagates the byte-slice panic. -/
def dropLinesBytes (common : Nat) : List (List Char) → Option (List (List Char))
  | [] => some []
  | l :: rest =>
    match (if isBlank l then some l else byteDrop l common), dropLinesBytes common rest with
    | some l2, some r2 => some (l2 :: r2)
    | _, _ => none

/-- Mirrors `convert_to_dada_string` at byte fidelity: the common indent
is counted in UTF-8 bytes (`count_bytes_in_common` on `as_bytes`) and
every non-blank line loses that many bytes (`&line[common_indent..]`);
`none` is the byte-slice panic off a character boundary. -/
def convertCharsBytes (s : List Char) : Option (List Char) :=
  if (rustLines s).length = 1 then some (support_escape s)
  else
    match (rustLines s).filter (fun l => ¬ isBlank l) with
    | [] => some []
    | firstLine :: otherLines =>
      let pfx := firstLine.takeWhile rustIsWhitespace
      let common :=
        ((otherLines.map (fun l => countBytesCommon (strBytes pfx) (strBytes l))).min?).getD 0
      (dropLinesBytes common (rustLines s)).map
        (fun ls => support_escape (trimChars (joinNl ls)))

/-- `convert_to_dada_string` at byte fidelity, on `String`; `none` is the
panic. -/
def convert_to_dada_string_bytes (s : String) : Option String :=
  (convertCharsBytes s.data).map (fun l => (⟨l⟩ : String))

/-! ## Numeric-literal parsing (`u64::from_str`, `i64::from_str`) -/

/-- Value of a nonempty all-digit word (otherwise `none`). -/
def digitsVal (l : List Char) : Option Nat :=
  if l ≠ [] ∧ l.all (fun c => c.isDigit) then
    some (l.foldl (fun a c => a * 10 + (c.toNat - 48)) 0)
  else none

/-- Models `u64::from_str`: an optional `+` sign, then decimal digits,
rejecting values outside `[0, 2^64)`.  (A leading `-` fails the digit
test, as in Rust.) -/
def parseU64 (s : String) : Option Nat :=
  let l := match s.data with
    | '+' :: r => r
    | r => r
  (digitsVal l).bind fun v => if v ≤ 18446744073709551615 then some v else none

/-- Models `i64::from_str`: an optional sign, then decimal digits,
rejecting values outside `[-2^63, 2^63)`. -/
def parseI64 (s : String) : Option Int :=
  match s.data with
  | '-' :: r =>
    (digitsVal r).bind fun m =>
      if m ≤ 9223372036854775808 then some (-(m : Int)) else none
  | '+' :: r =>
    (digitsVal r).bind fun m =>
      if m ≤ 9223372036854775807 then some ((m : Int)) else none
  | r =>
    (digitsVal r).bind fun m =>
      if m ≤ 9223372036854775807 then some ((m : Int)) else none

/-- Filter out underscores from a literal word. -/
def filterUnderscores (s : String) : String := ⟨s.data.filter (fun c => c ≠ '_')⟩

/-- Models success of `f64::from_str` on the lexer-shaped input
`int_word ++ "." ++ frac_word` (after underscore filtering): both words
are digit runs with at least one digit overall.  The numeric value of a
float is not embedded (see `VExprData.FloatLiteral`). -/
def parseFloatOk (intPart fracPart : String) : Bool :=
  (intPart.data ++ fracPart.data) ≠ [] &&
    (intPart.data ++ fracPart.data).all (fun c => c.isDigit)

/-! ## Non-recursive validator helpers -/

/-- Mirrors `Validator::validated_op`.  The parse-time operators reach the
`unreachable!` arm in Rust; they map to the unproducible `VOp.ParserOnly`
here. -/
def validated_op : SynOp → VOp
  | .PlusEqual => .Plus
  | .MinusEqual => .Minus
  | .TimesEqual => .Times
  | .DividedByEqual => .DividedBy
  | .EqualEqual => .EqualEqual
  | .GreaterEqual => .GreaterEqual
  | .LessEqual => .LessEqual
  | .Plus => .Plus
  | .Minus => .Minus
  | .Times => .Times
  | .DividedBy => .DividedBy
  | .LessThan => .LessThan
  | .GreaterThan => .GreaterThan
  | _ => .ParserOnly

/-- Mirrors `Validator::is_place_expression`. -/
def is_place_expression : SynExpr → Bool
  | .Id _ => true
  | .Dot _ _ => true
  | .Parenthesized inner => is_place_expression inner
  | _ => false

/-- Mirrors `Validator::seq`: execute `exprs` then `final_expr`, taking the
result from `final_expr`; no wrapper when `exprs` is empty, otherwise a
`Seq` whose origin is the synthesized origin of `final_expr`. -/
def seq (syn : Bool) (st : St) (exprs : List Nat) (finalExpr : Nat) : Nat × St :=
  if exprs.isEmpty then (finalExpr, st)
  else st.addExpr syn (.Seq (exprs ++ [finalExpr])) ((st.exprOriginAt finalExpr).synthesize)

/-- Mirrors `Validator::or_error`: replace a reported error by an `Error`
expression with the given (real) origin. -/
def or_error (syn : Bool) (st : St) (data : Option Nat) (origin : SynExpr) : Nat × St :=
  match data with
  | some r => (r, st)
  | none => st.addExpr syn .Error (ExprOrigin.real origin)

/-- Mirrors `Validator::empty_tuple`. -/
def empty_tuple (syn : Bool) (st : St) (origin : SynExpr) : Nat × St :=
  st.addExpr syn (.Tuple []) (ExprOrigin.real origin)

/-- Mirrors `Validator::store_validated_expr_in_temporary`: make an
unnamed local variable, insert it as a temporary into the current scope,
assign the expression to it, and return the assignment together with a
place for the temporary. -/
def store_validated_expr_in_temporary (syn : Bool) (sc : Scope) (st : St)
    (validatedExpr : Nat) : (Nat × Nat) × Scope × St :=
  let origin := (st.exprOriginAt validatedExpr).synthesize
  let (lv, st1) := st.addLocalVariable ⟨none, none, false⟩ (.Temporary origin.stxExpr)
  let sc1 := sc.insert_temporary lv
  let (assignExpr, st2) := st1.addExpr syn (.AssignTemporary lv validatedExpr) origin
  let (pl, st3) := st2.addPlace syn (.LocalVariable lv) origin
  ((assignExpr, pl), sc1, st3)

/-- Mirrors `Validator::place_to_expr`: coerce a (possibly failed) place
to an rvalue according to the expression mode. -/
def place_to_expr (syn : Bool) (st : St) (data : Option (Option Nat × Nat))
    (origin : ExprOrigin) (mode : ExprMode) : Nat × St :=
  match data with
  | some (optAssignExpr, place) =>
    match mode with
    | .Specifier .My | .Specifier .Any =>
      let (placeExpr, st1) := st.addExpr syn (.Give place) origin
      seq syn st1 optAssignExpr.toList placeExpr
    | .Specifier .Leased =>
      let (placeExpr, st1) := st.addExpr syn (.Lease place) origin
      seq syn st1 optAssignExpr.toList placeExpr
    | .Reserve =>
      let (placeExpr, st1) := st.addExpr syn (.Reserve place) origin
      seq syn st1 optAssignExpr.toList placeExpr
    | .Specifier .Our =>
      let (givenExpr, st1) := st.addExpr syn (.Give place) origin
      let (sharedExpr, st2) := st1.addExpr syn (.Share givenExpr) origin
      seq syn st2 optAssignExpr.toList sharedExpr
    | .Specifier .Shleased =>
      let (placeExpr, st1) := st.addExpr syn (.Shlease place) origin
      seq syn st1 optAssignExpr.toList placeExpr
  | none => st.addExpr syn .Error origin

/-- Mirrors `Validator::exit`: wrap the result of a subscope in a
`Declare` of the variables inserted in the subscope's own frame, if any. -/
def exitScope (syn : Bool) (sc : Scope) (st : St) (validatedExpr : Nat) : Nat × St :=
  match sc with
  | [] => (validatedExpr, st)
  | f :: _ =>
    if f.inserted.isEmpty then (validatedExpr, st)
    else st.addExpr syn (.Declare f.inserted validatedExpr)
      ((st.exprOriginAt validatedExpr).synthesize)

/-- Tag for the three permission operators routed through
`validate_permission_expr`. -/
inductive PermKind where
  | Lease | Shlease | GiveK
deriving DecidableEq

/-- Which `validated::ExprData` constructor a permission tag builds. -/
def PermKind.toData : PermKind → Nat → VExprData
  | .Lease, p => .Lease p
  | .Shlease, p => .Shlease p
  | .GiveK, p => .Give p

/-- Named-argument check of the `Call` arm: iterate the argument labels in
order; once any named argument has appeared, each later unnamed argument
gets a "parameter name required" diagnostic (positions stand in for
spans). -/
def nameCheckGo (nameRequired : Bool) (idx : Nat) : List (Option String) → List Diag
  | [] => []
  | some _ :: rest => nameCheckGo true (idx + 1) rest
  | none :: rest =>
    (if nameRequired then [Diag.ParameterNameRequired idx] else []) ++
      nameCheckGo nameRequired (idx + 1) rest

/-- Labels of validated named expressions, as read back from the tables in
the `Call` arm's check loop. -/
def nameCheckSt (st : St) (ids : List Nat) : List Diag :=
  nameCheckGo false 0 (ids.map (fun i => (st.namedExprAt i).name))

/-! ## The validator (`Validator::validate_expr_in_mode` and friends)

All functions take a fuel argument and match on it first; with fuel `0`
they return their input state unchanged (and id `0` / an empty result).
Every recursive call, including calls on the same syntax expression
(`validate_op_eq`, the default arms of `validate_expr_as_place` and
`validate_expr_as_target_place`), receives the decremented fuel, so the
whole block is structurally recursive on fuel and reduces definitionally.
Theorems about one arm are stated at `fuel + 1`. -/

mutual

/-- Mirrors `Validator::validate_expr_in_mode`. -/
def validate_expr_in_mode : Nat → Ctx → SynExpr → ExprMode → Scope → St → Nat × Scope × St
  | 0, _, _, _, sc, st => (0, sc, st)
  | fuel + 1, ctx, e, mode, sc, st =>
    match e with
    | .Dot _ _ | .Id _ =>
      let (place, sc1, st1) := validate_expr_as_place fuel ctx e sc st
      let (r, st2) := place_to_expr ctx.synthesized st1 place (ExprOrigin.synth e) mode
      (r, sc1, st2)
    | .BooleanLiteral b =>
      let (r, st1) := st.addExpr ctx.synthesized (.BooleanLiteral b) (ExprOrigin.real e)
      (r, sc, st1)
    | .IntegerLiteral w suffix =>
      let wu := filterUnderscores w
      match suffix with
      | some sfx =>
        if sfx = "u" then
          match parseU64 wu with
          | some v =>
            let (r, st1) :=
              st.addExpr ctx.synthesized (.UnsignedIntegerLiteral v) (ExprOrigin.real e)
            (r, sc, st1)
          | none =>
            let st1 := st.addDiag (.NotValidInteger wu)
            let (r, st2) := st1.addExpr ctx.synthesized .Error (ExprOrigin.real e)
            (r, sc, st2)
        else if sfx = "i" then
          match parseI64 wu with
          | some v =>
            let (r, st1) :=
              st.addExpr ctx.synthesized (.SignedIntegerLiteral v) (ExprOrigin.real e)
            (r, sc, st1)
          | none =>
            let st1 := st.addDiag (.NotValidInteger wu)
            let (r, st2) := st1.addExpr ctx.synthesized .Error (ExprOrigin.real e)
            (r, sc, st2)
        else
          let st1 := st.addDiag (.NotValidIntegerSuffix sfx)
          let (r, st2) := st1.addExpr ctx.synthesized .Error (ExprOrigin.real e)
          (r, sc, st2)
      | none =>
        match parseU64 wu with
        | some v =>
          let (r, st1) := st.addExpr ctx.synthesized (.IntegerLiteral v) (ExprOrigin.real e)
          (r, sc, st1)
        | none =>
          let st1 := st.addDiag (.NotValidInteger wu)
          let (r, st2) := st1.addExpr ctx.synthesized .Error (ExprOrigin.real e)
          (r, sc, st2)
    | .FloatLiteral wi wf =>
      if parseFloatOk (filterUnderscores wi) (filterUnderscores wf) then
        let fullStr := (filterUnderscores wi).append ((".").append (filterUnderscores wf))
        let (r, st1) := st.addExpr ctx.synthesized (.FloatLiteral fullStr) (ExprOrigin.real e)
        (r, sc, st1)
      else
        let st1 := st.addDiag (.NotValidFloat wi wf)
        let (r, st2) := st1.addExpr ctx.synthesized .Error (ExprOrigin.real e)
        (r, sc, st2)
    | .StringLiteral w =>
      let (r, st1) :=
        st.addExpr ctx.synthesized (.StringLiteral (convert_to_dada_string w))
          (ExprOrigin.real e)
      (r, sc, st1)
    | .Await futureExpr =>
      let st1 :=
        if ctx.effect.permits_await then st
        else match ctx.effect with
          | .Atomic => st.addDiag .AwaitInsideAtomic
          | _ => st.addDiag .AwaitOutsideAsync
      let (vf, sc1, st2) := validate_expr_in_mode fuel ctx futureExpr ExprMode.give sc st1
      let (r, st3) := st2.addExpr ctx.synthesized (.Await vf) (ExprOrigin.real e)
      (r, sc1, st3)
    | .Call funcExpr namedExprs =>
      let (vfunc, sc1, st1) := validate_expr_in_mode fuel ctx funcExpr .Reserve sc st
      let (ids, sc2, st2) := validate_named_exprs fuel ctx namedExprs sc1 st1
      let st3 := st2.addDiags (nameCheckSt st2 ids)
      let (r, st4) := st3.addExpr ctx.synthesized (.Call vfunc ids) (ExprOrigin.real e)
      (r, sc2, st4)
    | .Share targetExpr =>
      let (vt, sc1, st1) := validate_expr_in_mode fuel ctx targetExpr ExprMode.give sc st
      let (r, st2) := st1.addExpr ctx.synthesized (.Share vt) (ExprOrigin.real e)
      (r, sc1, st2)
    | .Lease targetExpr => validate_permission_expr fuel ctx e targetExpr .Lease sc st
    | .Shlease targetExpr => validate_permission_expr fuel ctx e targetExpr .Shlease sc st
    | .Give targetExpr =>
      if is_place_expression targetExpr then
        validate_permission_expr fuel ctx e targetExpr .GiveK sc st
      else
        validate_expr_in_mode fuel ctx targetExpr ExprMode.give sc st
    | .Var decl initializerExpr =>
      let (lv, st1) := st.addLocalVariable
        ⟨some decl.name, some decl.specifier, decl.atomic⟩ (.LocalVariable decl)
      let sc1 := sc.insert decl.name lv
      let (targetPlace, st2) :=
        st1.addTargetPlace ctx.synthesized (.LocalVariable lv) (ExprOrigin.synth e)
      validated_assignment fuel ctx targetPlace initializerExpr e sc1 st2
    | .Parenthesized parenthesizedExpr =>
      validate_expr_in_mode fuel ctx parenthesizedExpr mode sc st
    | .Tuple elementExprs =>
      let (vs, sc1, st1) := validate_exprs_reserve fuel ctx elementExprs sc st
      let (r, st2) := st1.addExpr ctx.synthesized (.Tuple vs) (ExprOrigin.real e)
      (r, sc1, st2)
    | .If conditionExpr thenExpr elseExpr =>
      let (vc, sc1, st1) := validate_expr_in_mode fuel ctx conditionExpr ExprMode.give sc st
      let (t0, scT, stT) :=
        validate_expr_in_mode fuel ctx thenExpr mode (Frame.empty :: sc1) st1
      let (vt, st2) := exitScope ctx.synthesized scT stT t0
      let (ve, st3) :=
        match elseExpr with
        | none => empty_tuple ctx.synthesized st2 e
        | some elseE =>
          let (e0, scE, stE) :=
            validate_expr_in_mode fuel ctx elseE mode (Frame.empty :: sc1) st2
          exitScope ctx.synthesized scE stE e0
      let (r, st4) := st3.addExpr ctx.synthesized (.If vc vt ve) (ExprOrigin.real e)
      (r, sc1, st4)
    | .Atomic atomicExpr =>
      let ctxA := { ctx with effect := .Atomic }
      let (a0, scA, stA) :=
        validate_expr_in_mode fuel ctxA atomicExpr mode (Frame.empty :: sc) st
      let (va, st1) := exitScope ctx.synthesized scA stA a0
      let (r, st2) := st1.addExpr ctx.synthesized (.Atomic va) (ExprOrigin.real e)
      (r, sc, st2)
    | .Loop bodyExpr =>
      let (loopExpr, st1) := st.addExpr ctx.synthesized .Error (ExprOrigin.real e)
      let ctxL := { ctx with loopStack := ctx.loopStack ++ [loopExpr] }
      let (b0, scB, stB) :=
        validate_expr_in_mode fuel ctxL bodyExpr (.Specifier .My) (Frame.empty :: sc) st1
      let (vb, st2) := exitScope ctx.synthesized scB stB b0
      (loopExpr, sc, st2.setExpr loopExpr (.Loop vb))
    | .While conditionExpr bodyExpr =>
      let (loopExpr, st1) := st.addExpr ctx.synthesized .Error (ExprOrigin.real e)
      let (vc, sc1, st2) := validate_expr_in_mode fuel ctx conditionExpr ExprMode.give sc st1
      let ctxL := { ctx with loopStack := ctx.loopStack ++ [loopExpr] }
      let (b0, scB, stB) :=
        validate_expr_in_mode fuel ctxL bodyExpr mode (Frame.empty :: sc1) st2
      let (vb, st3) := exitScope ctx.synthesized scB stB b0
      let (emptyTuple, st4) := empty_tuple ctx.synthesized st3 e
      let (breakExpr, st5) :=
        st4.addExpr ctx.synthesized (.Break loopExpr emptyTuple) (ExprOrigin.real e)
      let (ifBreakExpr, st6) :=
        st5.addExpr ctx.synthesized (.If vc emptyTuple breakExpr) (ExprOrigin.real e)
      let (loopBody, st7) :=
        st6.addExpr ctx.synthesized (.Seq [vb, ifBreakExpr]) (ExprOrigin.real e)
      (loopExpr, sc1, st7.setExpr loopExpr (.Loop loopBody))
    | .Op lhsExpr op rhsExpr =>
      let (vl, sc1, st1) := validate_expr_in_mode fuel ctx lhsExpr ExprMode.give sc st
      let (vr, sc2, st2) := validate_expr_in_mode fuel ctx rhsExpr ExprMode.give sc1 st1
      let (r, st3) :=
        st2.addExpr ctx.synthesized (.Op vl (validated_op op) vr) (ExprOrigin.real e)
      (r, sc2, st3)
    | .Unary op rhsExpr =>
      let (vr, sc1, st1) := validate_expr_in_mode fuel ctx rhsExpr ExprMode.give sc st
      let (r, st2) :=
        st1.addExpr ctx.synthesized (.Unary (validated_op op) vr) (ExprOrigin.real e)
      (r, sc1, st2)
    | .OpEq lhsExpr op rhsExpr =>
      let (res, sc1, st1) := validate_op_eq fuel ctx e lhsExpr op rhsExpr sc st
      let (r, st2) := or_error ctx.synthesized st1 res e
      (r, sc1, st2)
    | .Assign lhsExpr rhsExpr =>
      match validate_expr_as_target_place fuel ctx lhsExpr .Reserve sc st with
      | (none, sc1, st1) =>
        let (r, st2) := or_error ctx.synthesized st1 none e
        (r, sc1, st2)
      | (some (optTempExpr, lhsPlace), sc1, st1) =>
        let (assignExpr, sc2, st2) :=
          validated_assignment fuel ctx lhsPlace rhsExpr e sc1 st1
        let (r, st3) := seq ctx.synthesized st2 optTempExpr.toList assignExpr
        (r, sc2, st3)
    | .Error =>
      let (r, st1) := st.addExpr ctx.synthesized .Error (ExprOrigin.real e)
      (r, sc, st1)
    | .Seq exprs =>
      let (vs, sc1, st1) := validate_exprs_give fuel ctx exprs sc st
      let (r, st2) := st1.addExpr ctx.synthesized (.Seq vs) (ExprOrigin.real e)
      (r, sc1, st2)
    | .Return withValue =>
      let st1 :=
        match ctx.returnKind, withValue with
        | .Value, none => st.addDiag .ReturnRequiresExpression
        | .Unit, some _ => st.addDiag .CannotReturnValue
        | _, _ => st
      let (v, sc1, st2) :=
        match withValue with
        | some returnExpr =>
          validate_expr_in_mode fuel ctx returnExpr ExprMode.give sc st1
        | none =>
          let (v, st2) := empty_tuple ctx.synthesized st1 e
          (v, sc, st2)
      let (r, st3) := st2.addExpr ctx.synthesized (.Return v) (ExprOrigin.real e)
      (r, sc1, st3)

/-- The `Seq` arm's element loop: each element through
`give_validated_expr`. -/
def validate_exprs_give : Nat → Ctx → List SynExpr → Scope → St → List Nat × Scope × St
  | 0, _, _, sc, st => ([], sc, st)
  | fuel + 1, ctx, es, sc, st =>
    match es with
    | [] => ([], sc, st)
    | e :: rest =>
      let (v, sc1, st1) := validate_expr_in_mode fuel ctx e ExprMode.give sc st
      let (vs, sc2, st2) := validate_exprs_give fuel ctx rest sc1 st1
      (v :: vs, sc2, st2)

/-- The `Tuple` arm's element loop: each element through
`reserve_validated_expr`. -/
def validate_exprs_reserve : Nat → Ctx → List SynExpr → Scope → St → List Nat × Scope × St
  | 0, _, _, sc, st => ([], sc, st)
  | fuel + 1, ctx, es, sc, st =>
    match es with
    | [] => ([], sc, st)
    | e :: rest =>
      let (v, sc1, st1) := validate_expr_in_mode fuel ctx e .Reserve sc st
      let (vs, sc2, st2) := validate_exprs_reserve fuel ctx rest sc1 st1
      (v :: vs, sc2, st2)

/-- Mirrors `Validator::validate_named_exprs`. -/
def validate_named_exprs :
    Nat → Ctx → List SynNamedExpr → Scope → St → List Nat × Scope × St
  | 0, _, _, sc, st => ([], sc, st)
  | fuel + 1, ctx, nes, sc, st =>
    match nes with
    | [] => ([], sc, st)
    | ne :: rest =>
      let (v, sc1, st1) := validate_named_expr fuel ctx ne sc st
      let (vs, sc2, st2) := validate_named_exprs fuel ctx rest sc1 st1
      (v :: vs, sc2, st2)

/-- Mirrors `Validator::validate_named_expr`: validate the argument in
reserve mode, then intern the (label, expr) pair. -/
def validate_named_expr : Nat → Ctx → SynNamedExpr → Scope → St → Nat × Scope × St
  | 0, _, _, sc, st => (0, sc, st)
  | fuel + 1, ctx, ne, sc, st =>
    let (v, sc1, st1) := validate_expr_in_mode fuel ctx ne.2 .Reserve sc st
    let (r, st2) := st1.addNamedExpr ⟨ne.1, v⟩ ne
    (r, sc1, st2)

/-- Mirrors `Validator::validate_expr_as_place`.  `none` is a reported
error; a successful result is an optional temporary-initializing
expression plus the place. -/
def validate_expr_as_place :
    Nat → Ctx → SynExpr → Scope → St → Option (Option Nat × Nat) × Scope × St
  | 0, _, _, sc, st => (none, sc, st)
  | fuel + 1, ctx, e, sc, st =>
    match e with
    | .Id name =>
      match sc.lookup name with
      | some (.Class c) =>
        let (p, st1) := st.addPlace ctx.synthesized (.Class c) (ExprOrigin.real e)
        (some (none, p), sc, st1)
      | some (.Function f) =>
        let (p, st1) := st.addPlace ctx.synthesized (.Function f) (ExprOrigin.real e)
        (some (none, p), sc, st1)
      | some (.LocalVariable lv) =>
        let (p, st1) := st.addPlace ctx.synthesized (.LocalVariable lv) (ExprOrigin.real e)
        (some (none, p), sc, st1)
      | some (.Intrinsic i) =>
        let (p, st1) := st.addPlace ctx.synthesized (.Intrinsic i) (ExprOrigin.real e)
        (some (none, p), sc, st1)
      | none => (none, sc, st.addDiag (.NameNotFound name))
    | .Dot ownerExpr field =>
      match validate_expr_as_place fuel ctx ownerExpr sc st with
      | (none, sc1, st1) => (none, sc1, st1)
      | (some (optTempExpr, ownerPlace), sc1, st1) =>
        let (p, st2) :=
          st1.addPlace ctx.synthesized (.Dot ownerPlace field) (ExprOrigin.real e)
        (some (optTempExpr, p), sc1, st2)
    | .Parenthesized parenthesizedExpr =>
      validate_expr_as_place fuel ctx parenthesizedExpr sc st
    | .Error => (none, sc, st)
    | _ =>
      let (v, sc1, st1) := validate_expr_in_mode fuel ctx e ExprMode.give sc st
      let ((assignExpr, temporaryPlace), sc2, st2) :=
        store_validated_expr_in_temporary ctx.synthesized sc1 st1 v
      (some (some assignExpr, temporaryPlace), sc2, st2)

/-- Mirrors `Validator::validate_expr_as_target_place`. -/
def validate_expr_as_target_place :
    Nat → Ctx → SynExpr → ExprMode → Scope → St → Option (Option Nat × Nat) × Scope × St
  | 0, _, _, _, sc, st => (none, sc, st)
  | fuel + 1, ctx, e, ownerMode, sc, st =>
    match e with
    | .Dot ownerExpr field =>
      let (vOwner, sc1, st1) := validate_expr_in_mode fuel ctx ownerExpr ownerMode sc st
      let ((assignExpr, ownerPlace), sc2, st2) :=
        store_validated_expr_in_temporary ctx.synthesized sc1 st1 vOwner
      let (tp, st3) :=
        st2.addTargetPlace ctx.synthesized (.Dot ownerPlace field) (ExprOrigin.real e)
      (some (some assignExpr, tp), sc2, st3)
    | .Id name =>
      match sc.lookup name with
      | some (.LocalVariable lv) =>
        let (tp, st1) :=
          st.addTargetPlace ctx.synthesized (.LocalVariable lv) (ExprOrigin.real e)
        (some (none, tp), sc, st1)
      | some _ => (none, sc, st.addDiag (.AssignToNonVariable name))
      | none => (none, sc, st.addDiag (.NameNotFound name))
    | .Parenthesized targetExpr =>
      validate_expr_as_target_place fuel ctx targetExpr ownerMode sc st
    | _ =>
      let (_, sc1, st1) := validate_expr_in_mode fuel ctx e ExprMode.give sc st
      (none, sc1, st1.addDiag .AssignToArbitraryExpr)

/-- Mirrors `Validator::validate_op_eq` (the whole `OpEq` expression is
destructured at the call site; the Rust let-else panic for a non-`OpEq`
argument is unreachable). -/
def validate_op_eq :
    Nat → Ctx → SynExpr → SynExpr → SynOp → SynExpr → Scope → St → Option Nat × Scope × St
  | 0, _, _, _, _, _, sc, st => (none, sc, st)
  | fuel + 1, ctx, opEqExpr, lhsExpr, op, rhsExpr, sc, st =>
    match validate_expr_as_target_place fuel ctx lhsExpr ExprMode.leased sc st with
    | (none, sc1, st1) => (none, sc1, st1)
    | (some (leaseOwnerExpr, validatedTargetPlace), sc1, st1) =>
      let validatedOp := validated_op op
      let lhsPlaceData : VPlaceData :=
        match st1.targetPlaceAt validatedTargetPlace with
        | .LocalVariable lv => .LocalVariable lv
        | .Dot owner field => .Dot owner field
      let (lhsPlace, st2) :=
        st1.addPlace ctx.synthesized lhsPlaceData (ExprOrigin.synth lhsExpr)
      let (validatedLhsExpr, st3) :=
        st2.addExpr ctx.synthesized (.Give lhsPlace) (ExprOrigin.synth lhsExpr)
      let (validatedRhsExpr, sc2, st4) :=
        validate_expr_in_mode fuel ctx rhsExpr ExprMode.give sc1 st3
      let (validatedOpExpr, st5) :=
        st4.addExpr ctx.synthesized (.Op validatedLhsExpr validatedOp validatedRhsExpr)
          (ExprOrigin.synth opEqExpr)
      let ((temporaryAssignExpr, temporaryPlace), sc3, st6) :=
        store_validated_expr_in_temporary ctx.synthesized sc2 st5 validatedOpExpr
      let (assignFieldExpr, st7) :=
        st6.addExpr ctx.synthesized
          (.AssignFromPlace validatedTargetPlace temporaryPlace)
          (ExprOrigin.real opEqExpr)
      let (r, st8) :=
        seq ctx.synthesized st7 (leaseOwnerExpr.toList ++ [temporaryAssignExpr])
          assignFieldExpr
      (some r, sc3, st8)

/-- Mirrors `Validator::validated_assignment`: assign an initializer to a
target place, going through a temporary unless the initializer is itself a
place expression. -/
def validated_assignment :
    Nat → Ctx → Nat → SynExpr → SynExpr → Scope → St → Nat × Scope × St
  | 0, _, _, _, _, sc, st => (0, sc, st)
  | fuel + 1, ctx, targetPlace, initializerExpr, origin, sc, st =>
    if is_place_expression initializerExpr then
      match validate_expr_as_place fuel ctx initializerExpr sc st with
      | (none, sc1, st1) =>
        let (r, st2) := or_error ctx.synthesized st1 none origin
        (r, sc1, st2)
      | (some (optTempExpr, initializerPlace), sc1, st1) =>
        let (assignmentExpr, st2) :=
          st1.addExpr ctx.synthesized (.AssignFromPlace targetPlace initializerPlace)
            (ExprOrigin.real origin)
        let (r, st3) := seq ctx.synthesized st2 optTempExpr.toList assignmentExpr
        (r, sc1, st3)
    else
      let (v, sc1, st1) :=
        validate_expr_in_mode fuel ctx initializerExpr ExprMode.give sc st
      let ((tempInitializerExpr, tempPlace), sc2, st2) :=
        store_validated_expr_in_temporary ctx.synthesized sc1 st1 v
      let (assignmentExpr, st3) :=
        st2.addExpr ctx.synthesized (.AssignFromPlace targetPlace tempPlace)
          (ExprOrigin.real origin)
      let (r, st4) := seq ctx.synthesized st3 [tempInitializerExpr] assignmentExpr
      (r, sc2, st4)

/-- Mirrors `Validator::validate_permission_expr`. -/
def validate_permission_expr :
    Nat → Ctx → SynExpr → SynExpr → PermKind → Scope → St → Nat × Scope × St
  | 0, _, _, _, _, sc, st => (0, sc, st)
  | fuel + 1, ctx, permExpr, targetExpr, kind, sc, st =>
    match validate_expr_as_place fuel ctx targetExpr sc st with
    | (none, sc1, st1) =>
      let (r, st2) := or_error ctx.synthesized st1 none permExpr
      (r, sc1, st2)
    | (some (optTemporaryExpr, place), sc1, st1) =>
      let (permissionExpr, st2) :=
        st1.addExpr ctx.synthesized (kind.toData place) (ExprOrigin.real permExpr)
      let (r, st3) := seq ctx.synthesized st2 optTemporaryExpr.toList permissionExpr
      (r, sc1, st3)

end

/-- Mirrors `Validator::give_validated_expr` (without the `assert_eq!`,
which is the subject of the origin theorems). -/
def give_validated_expr (fuel : Nat) (ctx : Ctx) (e : SynExpr) (sc : Scope) (st : St) :
    Nat × Scope × St :=
  validate_expr_in_mode fuel ctx e ExprMode.give sc st

/-- Mirrors `Validator::reserve_validated_expr` (without the
`assert_eq!`). -/
def reserve_validated_expr (fuel : Nat) (ctx : Ctx) (e : SynExpr) (sc : Scope) (st : St) :
    Nat × Scope × St :=
  validate_expr_in_mode fuel ctx e .Reserve sc st

/-! ## Bir basic blocks (`bir::BasicBlockData`) -/

/-- A basic block: statement ids followed by one terminator id
(`bir::BasicBlockData`). -/
structure BasicBlockData where
  statements : List Nat
  terminator : Nat
deriving DecidableEq

/-- Mirrors `bir::BasicBlockElement`. -/
inductive BasicBlockElement where
  | Statement (s : Nat)
  | Terminator (t : Nat)
deriving DecidableEq

/-- Mirrors `BasicBlockData::elements`: number of elements including the
terminator. -/
def BasicBlockData.elements (b : BasicBlockData) : Nat := b.statements.length + 1

/-- Mirrors `BasicBlockData::element_at`: the statement at `index` when in
range, the terminator otherwise. -/
def BasicBlockData.element_at (b : BasicBlockData) (index : Nat) : BasicBlockElement :=
  if h : index < b.statements.length then .Statement (b.statements.get ⟨index, h⟩)
  else .Terminator b.terminator

/-! ## General lemmas about the tables -/

/-- Reading just past a prefix returns the first appended element. -/
theorem getD_append_self {α : Type} (l : List α) (a : α) (t : List α) (d : α) :
    (l ++ a :: t).getD l.length d = a := by
  induction l with
  | nil => rfl
  | cons x xs ih => simpa [List.getD] using ih

/-- Indexing just past a prefix hits the first appended element
(`getElem` form). -/
@[simp] theorem getElem_append_len {α : Type} (l : List α) (a : α) (t : List α)
    (h : l.length < (l ++ a :: t).length) : (l ++ a :: t)[l.length] = a := by
  induction l with
  | nil => rfl
  | cons x xs ih => simpa using ih (by simp [List.length_append])

/-- Indexing one past a prefix hits the second appended element
(`getElem` form). -/
@[simp] theorem getElem_append_len_one {α : Type} (l : List α) (a b : α) (t : List α)
    (h : l.length + 1 < (l ++ a :: b :: t).length) : (l ++ a :: b :: t)[l.length + 1] = b := by
  induction l with
  | nil => rfl
  | cons x xs ih => simpa using ih (by simp [List.length_append])

@[simp] theorem addExpr_fst (st : St) (syn : Bool) (d : VExprData) (o : ExprOrigin) :
    (st.addExpr syn d o).1 = st.exprs.length := rfl

@[simp] theorem exprAt_addExpr_self (st : St) (syn : Bool) (d : VExprData) (o : ExprOrigin) :
    ((st.addExpr syn d o).2).exprAt st.exprs.length = d := by
  simp [St.addExpr, St.exprAt, getD_append_self]

@[simp] theorem addExpr_diags (st : St) (syn : Bool) (d : VExprData) (o : ExprOrigin) :
    ((st.addExpr syn d o).2).diags = st.diags := rfl

@[simp] theorem addExpr_places (st : St) (syn : Bool) (d : VExprData) (o : ExprOrigin) :
    ((st.addExpr syn d o).2).places = st.places := rfl

@[simp] theorem addDiag_exprs (st : St) (d : Diag) : (st.addDiag d).exprs = st.exprs := rfl

@[simp] theorem addDiag_diags (st : St) (d : Diag) :
    (st.addDiag d).diags = st.diags ++ [d] := rfl

@[simp] theorem exprAt_addDiag (st : St) (d : Diag) (i : Nat) :
    (st.addDiag d).exprAt i = st.exprAt i := rfl

@[simp] theorem addPlace_fst (st : St) (syn : Bool) (d : VPlaceData) (o : ExprOrigin) :
    (st.addPlace syn d o).1 = st.places.length := rfl

@[simp] theorem placeAt_addPlace_self (st : St) (syn : Bool) (d : VPlaceData) (o : ExprOrigin) :
    ((st.addPlace syn d o).2).placeAt st.places.length = d := by
  simp [St.addPlace, St.placeAt, getD_append_self]

@[simp] theorem addPlace_exprs (st : St) (syn : Bool) (d : VPlaceData) (o : ExprOrigin) :
    ((st.addPlace syn d o).2).exprs = st.exprs := rfl

@[simp] theorem exprAt_addPlace (st : St) (syn : Bool) (d : VPlaceData) (o : ExprOrigin)
    (i : Nat) : ((st.addPlace syn d o).2).exprAt i = st.exprAt i := rfl

@[simp] theorem placeAt_addExpr (st : St) (syn : Bool) (d : VExprData) (o : ExprOrigin)
    (i : Nat) : ((st.addExpr syn d o).2).placeAt i = st.placeAt i := rfl

/-- Shared concrete context for the concrete evaluations below: a plain
function (`Default` effect, unit return type), not in synthesized mode. -/
def ctx0 : Ctx := ⟨.Default, [], false, .Unit⟩

/-- Shared concrete scope binding the name "x" to local variable 0. -/
def scX : Scope := [⟨[(("x"), Definition.LocalVariable 0)], []⟩]

/-! ## C10 — Bir `element_at` is total -/

/-- C10: for every basic block and index, `element_at` returns the
statement at the index when it is in range, and the terminator for every
index at or beyond the statement count — in particular at or beyond
`elements()` — so it is total and never panics. -/
theorem c10_element_at_total (b : BasicBlockData) (i : Nat) :
    (∀ h : i < b.statements.length,
        b.element_at i = .Statement (b.statements.get ⟨i, h⟩)) ∧
    (b.statements.length ≤ i → b.element_at i = .Terminator b.terminator) ∧
    (b.elements ≤ i → b.element_at i = .Terminator b.terminator) := by
  refine ⟨fun h => ?_, fun h => ?_, fun h => ?_⟩
  · simp [BasicBlockData.element_at, h]
  · simp [BasicBlockData.element_at, Nat.not_lt.mpr h]
  · have h' : b.statements.length ≤ i := by
      have := b.elements
      unfold BasicBlockData.elements at h
      omega
    simp [BasicBlockData.element_at, Nat.not_lt.mpr h']

/-- Witness for C10 at a concrete block: index 0 hits the statement,
indices 1 and 5 (beyond `elements()`) hit the terminator. -/
theorem c10_element_at_total_witness :
    (BasicBlockData.mk [7] 9).element_at 0 = .Statement 7 ∧
    (BasicBlockData.mk [7] 9).element_at 1 = .Terminator 9 ∧
    (BasicBlockData.mk [7] 9).element_at 5 = .Terminator 9 := by
  refine ⟨?_, ?_, ?_⟩
  · exact (c10_element_at_total ⟨[7], 9⟩ 0).1 (by decide)
  · exact (c10_element_at_total ⟨[7], 9⟩ 1).2.1 (by decide)
  · exact (c10_element_at_total ⟨[7], 9⟩ 5).2.2 (by decide)

/-! ## C1 — the origin assert of `give_validated_expr` -/

/-- C1: the origin assertion fails on the code.  Validating a
`Parenthesized` expression returns the validated expression of the inner
expression unchanged, so its recorded origin is the inner syntax
expression, not the parenthesized one — the `assert_eq!` in
`give_validated_expr` / `reserve_validated_expr` compares it against the
parenthesized expression and panics.  Concretely, for `(true)` the origin
is the inner boolean literal. -/
theorem c1_paren_origin_breaks_assert :
    ((give_validated_expr 10 ctx0 (.Parenthesized (.BooleanLiteral true)) [] St.empty).2.2.exprOriginAt
        (give_validated_expr 10 ctx0 (.Parenthesized (.BooleanLiteral true)) [] St.empty).1).stxExpr
      = SynExpr.BooleanLiteral true ∧
    SynExpr.BooleanLiteral true ≠ SynExpr.Parenthesized (SynExpr.BooleanLiteral true) := by
  exact ⟨rfl, by simp⟩

/-! ## C5 — `await` effect checking -/

/-- C5: validating `await` emits the inside-atomic diagnostic under the
`Atomic` effect and the outside-async diagnostic under the `Default`
effect, and no diagnostic under `Async`; in every case the diagnostic (if
any) is emitted first, the future is then validated in give mode, and the
result is an `Await` expression wrapping it — never an `Error` node. -/
theorem c5_await_effect_check (fuel : Nat) (ctx : Ctx) (fut : SynExpr) (m : ExprMode)
    (sc : Scope) (st : St) :
    (validate_expr_in_mode (fuel + 1) ctx (.Await fut) m sc st =
      (let stA := match ctx.effect with
        | .Atomic => st.addDiag .AwaitInsideAtomic
        | .Default => st.addDiag .AwaitOutsideAsync
        | .Async => st
       let (vf, sc1, st2) := validate_expr_in_mode fuel ctx fut ExprMode.give sc stA
       let (r, st3) := st2.addExpr ctx.synthesized (.Await vf) (ExprOrigin.real (.Await fut))
       (r, sc1, st3))) ∧
    ((match ctx.effect with
      | .Atomic => st.addDiag .AwaitInsideAtomic
      | .Default => st.addDiag .AwaitOutsideAsync
      | .Async => st).diags =
        st.diags ++ (match ctx.effect with
          | .Atomic => [Diag.AwaitInsideAtomic]
          | .Default => [Diag.AwaitOutsideAsync]
          | .Async => [])) ∧
    ((validate_expr_in_mode (fuel + 1) ctx (.Await fut) m sc st).2.2.exprAt
        (validate_expr_in_mode (fuel + 1) ctx (.Await fut) m sc st).1 =
      .Await ((validate_expr_in_mode fuel ctx fut ExprMode.give sc
        (match ctx.effect with
          | .Atomic => st.addDiag .AwaitInsideAtomic
          | .Default => st.addDiag .AwaitOutsideAsync
          | .Async => st)).1)) := by
  refine ⟨?_, ?_, ?_⟩
  · cases h : ctx.effect <;>
      simp [validate_expr_in_mode, Effect.permits_await, h]
  · cases h : ctx.effect <;> simp
  · cases h : ctx.effect <;>
      simp [validate_expr_in_mode, Effect.permits_await, h]

/-! ## C9 — integer literals -/

/-- C9: integer literals filter underscores and then parse according to
the suffix: none ⇒ `IntegerLiteral` via `u64`, `u` ⇒
`UnsignedIntegerLiteral` via `u64`, `i` ⇒ `SignedIntegerLiteral` via
`i64`; a parse failure or unknown suffix emits a diagnostic and yields an
`Error` expression.  `18446744073709551615` (no suffix) is accepted and
`18446744073709551616` is diagnosed and yields `Error`. -/
theorem c9_integer_literals (fuel : Nat) (ctx : Ctx) (w : String) (m : ExprMode)
    (sc : Scope) (st : St) :
    (∀ v, parseU64 (filterUnderscores w) = some v →
      (validate_expr_in_mode (fuel + 1) ctx (.IntegerLiteral w none) m sc st).2.2.exprAt
          (validate_expr_in_mode (fuel + 1) ctx (.IntegerLiteral w none) m sc st).1 =
        .IntegerLiteral v ∧
      (validate_expr_in_mode (fuel + 1) ctx (.IntegerLiteral w none) m sc st).2.2.diags =
        st.diags) ∧
    (parseU64 (filterUnderscores w) = none →
      (validate_expr_in_mode (fuel + 1) ctx (.IntegerLiteral w none) m sc st).2.2.exprAt
          (validate_expr_in_mode (fuel + 1) ctx (.IntegerLiteral w none) m sc st).1 =
        .Error ∧
      (validate_expr_in_mode (fuel + 1) ctx (.IntegerLiteral w none) m sc st).2.2.diags =
        st.diags ++ [Diag.NotValidInteger (filterUnderscores w)]) ∧
    (∀ v, parseU64 (filterUnderscores w) = some v →
      (validate_expr_in_mode (fuel + 1) ctx (.IntegerLiteral w (some ("u"))) m sc st).2.2.exprAt
          (validate_expr_in_mode (fuel + 1) ctx (.IntegerLiteral w (some ("u"))) m sc st).1 =
        .UnsignedIntegerLiteral v) ∧
    (parseU64 (filterUnderscores w) = none →
      (validate_expr_in_mode (fuel + 1) ctx (.IntegerLiteral w (some ("u"))) m sc st).2.2.exprAt
          (validate_expr_in_mode (fuel + 1) ctx (.IntegerLiteral w (some ("u"))) m sc st).1 =
        .Error ∧
      (validate_expr_in_mode (fuel + 1) ctx (.IntegerLiteral w (some ("u"))) m sc st).2.2.diags =
        st.diags ++ [Diag.NotValidInteger (filterUnderscores w)]) ∧
    (∀ v, parseI64 (filterUnderscores w) = some v →
      (validate_expr_in_mode (fuel + 1) ctx (.IntegerLiteral w (some ("i"))) m sc st).2.2.exprAt
          (validate_expr_in_mode (fuel + 1) ctx (.IntegerLiteral w (some ("i"))) m sc st).1 =
        .SignedIntegerLiteral v) ∧
    (parseI64 (filterUnderscores w) = none →
      (validate_expr_in_mode (fuel + 1) ctx (.IntegerLiteral w (some ("i"))) m sc st).2.2.exprAt
          (validate_expr_in_mode (fuel + 1) ctx (.IntegerLiteral w (some ("i"))) m sc st).1 =
        .Error ∧
      (validate_expr_in_mode (fuel + 1) ctx (.IntegerLiteral w (some ("i"))) m sc st).2.2.diags =
        st.diags ++ [Diag.NotValidInteger (filterUnderscores w)]) ∧
    (∀ sfx, sfx ≠ "u" → sfx ≠ "i" →
      (validate_expr_in_mode (fuel + 1) ctx (.IntegerLiteral w (some sfx)) m sc st).2.2.exprAt
          (validate_expr_in_mode (fuel + 1) ctx (.IntegerLiteral w (some sfx)) m sc st).1 =
        .Error ∧
      (validate_expr_in_mode (fuel + 1) ctx (.IntegerLiteral w (some sfx)) m sc st).2.2.diags =
        st.diags ++ [Diag.NotValidIntegerSuffix sfx]) ∧
    (parseU64 ("18446744073709551615") = some 18446744073709551615 ∧
      parseU64 ("18446744073709551616") = none) := by
  refine ⟨?_, ?_, ?_, ?_, ?_, ?_, ?_, by decide⟩
  · intro v h; constructor <;>
      simp [validate_expr_in_mode, h, St.addExpr, St.exprAt, St.addDiag, getD_append_self]
  · intro h; constructor <;>
      simp [validate_expr_in_mode, h, St.addExpr, St.exprAt, St.addDiag, getD_append_self]
  · intro v h
    simp [validate_expr_in_mode, h, St.addExpr, St.exprAt, St.addDiag, getD_append_self]
  · intro h; constructor <;>
      simp [validate_expr_in_mode, h, St.addExpr, St.exprAt, St.addDiag, getD_append_self]
  · intro v h
    simp [validate_expr_in_mode, h, St.addExpr, St.exprAt, St.addDiag, getD_append_self]
  · intro h; constructor <;>
      simp [validate_expr_in_mode, h, St.addExpr, St.exprAt, St.addDiag, getD_append_self]
  · intro sfx h1 h2; constructor <;>
      simp [validate_expr_in_mode, h1, h2, St.addExpr, St.exprAt, St.addDiag, getD_append_self]

/-- Witness for C9 at the boundary literals from the claim. -/
theorem c9_integer_literals_witness :
    parseU64 (filterUnderscores ("18446744073709551615")) = some 18446744073709551615 ∧
    (validate_expr_in_mode 1 ctx0 (.IntegerLiteral ("18446744073709551615") none)
        ExprMode.give [] St.empty).2.2.exprAt 0 = .IntegerLiteral 18446744073709551615 ∧
    parseU64 (filterUnderscores ("18446744073709551616")) = none ∧
    (validate_expr_in_mode 1 ctx0 (.IntegerLiteral ("18446744073709551616") none)
        ExprMode.give [] St.empty).2.2.exprAt 0 = .Error ∧
    parseI64 (filterUnderscores ("9223372036854775808")) = none ∧
    (validate_expr_in_mode 1 ctx0 (.IntegerLiteral ("9223372036854775808") (some ("i")))
        ExprMode.give [] St.empty).2.2.diags =
      [Diag.NotValidInteger (filterUnderscores ("9223372036854775808"))] := by
  refine ⟨by decide, ?_, by decide, ?_, by decide, ?_⟩
  · exact ((c9_integer_literals 0 ctx0 ("18446744073709551615") ExprMode.give []
      St.empty).1 18446744073709551615 (by decide)).1
  · exact (((c9_integer_literals 0 ctx0 ("18446744073709551616") ExprMode.give []
      St.empty).2.1) (by decide)).1
  · exact (((c9_integer_literals 0 ctx0 ("9223372036854775808") ExprMode.give []
      St.empty).2.2.2.2.2.1) (by decide)).2

/-! ## C2 — `while` desugaring -/

/-- Spec-side desugaring of `while`, following the spec's words: the
validated IR of the explicit form `loop { body; if cond {} else { break } }`,
built over an eagerly allocated loop id that started as an `Error`
placeholder and is overwritten.  The surface syntax of this repository has
no `break` expression, so the explicit form exists only at the validated
level; its nodes carry the `while` expression as origin (the code records
them as real origins, which is equality on origins even before
disregarding synthesized flags). -/
def whileDesugarSpec (syn : Bool) (st : St) (loopExpr vc vb : Nat) (e : SynExpr) :
    Nat × St :=
  let (emptyTuple, st1) := empty_tuple syn st e
  let (breakExpr, st2) := st1.addExpr syn (.Break loopExpr emptyTuple) (ExprOrigin.real e)
  let (ifBreakExpr, st3) := st2.addExpr syn (.If vc emptyTuple breakExpr) (ExprOrigin.real e)
  let (loopBody, st4) := st3.addExpr syn (.Seq [vb, ifBreakExpr]) (ExprOrigin.real e)
  (loopExpr, st4.setExpr loopExpr (.Loop loopBody))

/-- C2: validating `while c { b }` allocates the loop id eagerly as an
`Error` placeholder, validates the condition then the body (the body in a
subscope that can refer to the loop), and then overwrites the placeholder
with exactly the IR of the spec's explicit form
`loop { b; if c {} else break }` as built by `whileDesugarSpec` — a `Loop`
whose body is `Seq [validated b, If (validated c) emptyTuple (Break loop emptyTuple)]`. -/
theorem c2_while_desugars_to_spec_loop (fuel : Nat) (ctx : Ctx) (c b : SynExpr)
    (m : ExprMode) (sc : Scope) (st : St) :
    validate_expr_in_mode (fuel + 1) ctx (.While c b) m sc st =
      (let (loopExpr, st1) := st.addExpr ctx.synthesized .Error (ExprOrigin.real (.While c b))
       let (vc, sc1, st2) := validate_expr_in_mode fuel ctx c ExprMode.give sc st1
       let ctxL := { ctx with loopStack := ctx.loopStack ++ [loopExpr] }
       let (b0, scB, stB) := validate_expr_in_mode fuel ctxL b m (Frame.empty :: sc1) st2
       let (vb, st3) := exitScope ctx.synthesized scB stB b0
       let (r, st4) := whileDesugarSpec ctx.synthesized st3 loopExpr vc vb (.While c b)
       (r, sc1, st4)) := rfl

/-! ## C3 — bare-place coercion table -/

/-- Validated place data for a resolved definition, as interned by the
`Id` arm of `validate_expr_as_place`. -/
def defPlaceData : Definition → VPlaceData
  | .LocalVariable lv => .LocalVariable lv
  | .Function f => .Function f
  | .Class c => .Class c
  | .Intrinsic i => .Intrinsic i

/-- Heads whose validation ignores the expression mode entirely.  The
mode reaches subexpressions through `Parenthesized`, the branches of `If`,
the body of `Atomic` and the body of `While`, and determines the coercion
of bare places (`Id`/`Dot`); every other arm of `validate_expr_in_mode`
validates its children under fixed modes. -/
def mode_insensitive_head : SynExpr → Bool
  | .Id _ => false
  | .Dot _ _ => false
  | .Parenthesized _ => false
  | .If _ _ _ => false
  | .Atomic _ => false
  | .While _ _ => false
  | _ => true

/-- C3 (amended): a bare place expression — an identifier that resolves
to a definition, a dot access whose owner is such an identifier, and in
general any `Id`/`Dot`-headed expression whose place validation succeeds
without a temporary (the third conjunct, covering dot chains of any
depth) — is coerced per mode — `Give p` under `My`/`Any`, `Lease p`
under `Leased`, `Shlease p` under `Shleased`, `Share (Give p)` under
`Our`, `Reserve p` under `Reserve` — and the mode is ignored by every
arm other than
`Id`/`Dot`/`Parenthesized`/`If`/`Atomic`/`While` (the claim's statement
that all non-place expressions are mode-independent fails, because
`Parenthesized`, `If`, `Atomic` and `While` propagate the mode into their
subexpressions; see the counterexample). -/
theorem c3_bare_place_mode_table :
    (∀ (fuel : Nat) (ctx : Ctx) (sc : Scope) (st : St) (n : String) (d : Definition)
        (m : ExprMode), sc.lookup n = some d →
      ((validate_expr_in_mode (fuel + 2) ctx (.Id n) m sc st).2.2.placeAt st.places.length =
        defPlaceData d) ∧
      ((m = ExprMode.Specifier .My ∨ m = ExprMode.Specifier .Any) →
        (validate_expr_in_mode (fuel + 2) ctx (.Id n) m sc st).2.2.exprAt
          (validate_expr_in_mode (fuel + 2) ctx (.Id n) m sc st).1 =
          .Give st.places.length) ∧
      (m = ExprMode.Specifier .Leased →
        (validate_expr_in_mode (fuel + 2) ctx (.Id n) m sc st).2.2.exprAt
          (validate_expr_in_mode (fuel + 2) ctx (.Id n) m sc st).1 =
          .Lease st.places.length) ∧
      (m = ExprMode.Specifier .Shleased →
        (validate_expr_in_mode (fuel + 2) ctx (.Id n) m sc st).2.2.exprAt
          (validate_expr_in_mode (fuel + 2) ctx (.Id n) m sc st).1 =
          .Shlease st.places.length) ∧
      (m = ExprMode.Reserve →
        (validate_expr_in_mode (fuel + 2) ctx (.Id n) m sc st).2.2.exprAt
          (validate_expr_in_mode (fuel + 2) ctx (.Id n) m sc st).1 =
          .Reserve st.places.length) ∧
      (m = ExprMode.Specifier .Our →
        (validate_expr_in_mode (fuel + 2) ctx (.Id n) m sc st).2.2.exprAt
            (validate_expr_in_mode (fuel + 2) ctx (.Id n) m sc st).1 =
          .Share st.exprs.length ∧
        (validate_expr_in_mode (fuel + 2) ctx (.Id n) m sc st).2.2.exprAt st.exprs.length =
          .Give st.places.length)) ∧
    (∀ (fuel : Nat) (ctx : Ctx) (sc : Scope) (st : St) (n fld : String) (d : Definition)
        (m : ExprMode), sc.lookup n = some d →
      ((validate_expr_in_mode (fuel + 3) ctx (.Dot (.Id n) fld) m sc st).2.2.placeAt
          st.places.length = defPlaceData d) ∧
      ((validate_expr_in_mode (fuel + 3) ctx (.Dot (.Id n) fld) m sc st).2.2.placeAt
          (st.places.length + 1) = .Dot st.places.length fld) ∧
      ((m = ExprMode.Specifier .My ∨ m = ExprMode.Specifier .Any) →
        (validate_expr_in_mode (fuel + 3) ctx (.Dot (.Id n) fld) m sc st).2.2.exprAt
          (validate_expr_in_mode (fuel + 3) ctx (.Dot (.Id n) fld) m sc st).1 =
          .Give (st.places.length + 1)) ∧
      (m = ExprMode.Specifier .Leased →
        (validate_expr_in_mode (fuel + 3) ctx (.Dot (.Id n) fld) m sc st).2.2.exprAt
          (validate_expr_in_mode (fuel + 3) ctx (.Dot (.Id n) fld) m sc st).1 =
          .Lease (st.places.length + 1)) ∧
      (m = ExprMode.Specifier .Shleased →
        (validate_expr_in_mode (fuel + 3) ctx (.Dot (.Id n) fld) m sc st).2.2.exprAt
          (validate_expr_in_mode (fuel + 3) ctx (.Dot (.Id n) fld) m sc st).1 =
          .Shlease (st.places.length + 1)) ∧
      (m = ExprMode.Reserve →
        (validate_expr_in_mode (fuel + 3) ctx (.Dot (.Id n) fld) m sc st).2.2.exprAt
          (validate_expr_in_mode (fuel + 3) ctx (.Dot (.Id n) fld) m sc st).1 =
          .Reserve (st.places.length + 1)) ∧
      (m = ExprMode.Specifier .Our →
        (validate_expr_in_mode (fuel + 3) ctx (.Dot (.Id n) fld) m sc st).2.2.exprAt
            (validate_expr_in_mode (fuel + 3) ctx (.Dot (.Id n) fld) m sc st).1 =
          .Share st.exprs.length ∧
        (validate_expr_in_mode (fuel + 3) ctx (.Dot (.Id n) fld) m sc st).2.2.exprAt
            st.exprs.length =
          .Give (st.places.length + 1))) ∧
    (∀ (fuel : Nat) (ctx : Ctx) (e : SynExpr) (m : ExprMode) (sc : Scope) (st : St)
        (p : Nat) (sc1 : Scope) (st1 : St),
      (match e with | .Id _ => True | .Dot _ _ => True | _ => False) →
      validate_expr_as_place fuel ctx e sc st = (some ((none : Option Nat), p), sc1, st1) →
      ((m = ExprMode.Specifier .My ∨ m = ExprMode.Specifier .Any →
        (validate_expr_in_mode (fuel + 1) ctx e m sc st).2.2.exprAt
          (validate_expr_in_mode (fuel + 1) ctx e m sc st).1 = .Give p) ∧
      (m = ExprMode.Specifier .Leased →
        (validate_expr_in_mode (fuel + 1) ctx e m sc st).2.2.exprAt
          (validate_expr_in_mode (fuel + 1) ctx e m sc st).1 = .Lease p) ∧
      (m = ExprMode.Specifier .Shleased →
        (validate_expr_in_mode (fuel + 1) ctx e m sc st).2.2.exprAt
          (validate_expr_in_mode (fuel + 1) ctx e m sc st).1 = .Shlease p) ∧
      (m = ExprMode.Reserve →
        (validate_expr_in_mode (fuel + 1) ctx e m sc st).2.2.exprAt
          (validate_expr_in_mode (fuel + 1) ctx e m sc st).1 = .Reserve p) ∧
      (m = ExprMode.Specifier .Our →
        (validate_expr_in_mode (fuel + 1) ctx e m sc st).2.2.exprAt
            (validate_expr_in_mode (fuel + 1) ctx e m sc st).1 = .Share st1.exprs.length ∧
        (validate_expr_in_mode (fuel + 1) ctx e m sc st).2.2.exprAt st1.exprs.length =
          .Give p))) ∧
    (∀ (fuel : Nat) (ctx : Ctx) (e : SynExpr) (m1 m2 : ExprMode) (sc : Scope) (st : St),
      mode_insensitive_head e = true →
      validate_expr_in_mode fuel ctx e m1 sc st = validate_expr_in_mode fuel ctx e m2 sc st) := by
  refine ⟨?_, ?_, ?_, ?_⟩
  · intro fuel ctx sc st n d m h
    cases d <;> cases m <;> rename_i s <;> try cases s
    all_goals
      refine ⟨?_, ?_, ?_, ?_, ?_, ?_⟩ <;>
        simp [validate_expr_in_mode, validate_expr_as_place, place_to_expr, seq, h,
          defPlaceData, St.addExpr, St.addPlace, St.exprAt, St.placeAt, getD_append_self]
  · intro fuel ctx sc st n fld d m h
    cases d <;> cases m <;> rename_i s <;> try cases s
    all_goals
      refine ⟨?_, ?_, ?_, ?_, ?_, ?_, ?_⟩ <;>
        simp [validate_expr_in_mode, validate_expr_as_place, place_to_expr, seq, h,
          defPlaceData, St.addExpr, St.addPlace, St.exprAt, St.placeAt, getD_append_self]
  · intro fuel ctx e m sc st p sc1 st1 hshape hsucc
    have hA : validate_expr_in_mode (fuel + 1) ctx e m sc st =
        (let (place, sc1a, st1a) := validate_expr_as_place fuel ctx e sc st
         let (r, st2) := place_to_expr ctx.synthesized st1a place (ExprOrigin.synth e) m
         (r, sc1a, st2)) := by
      cases e <;> first | rfl | exact hshape.elim
    rw [hA, hsucc]
    refine ⟨?_, ?_, ?_, ?_, ?_⟩
    · rintro (rfl | rfl) <;>
        simp [place_to_expr, seq, St.addExpr, St.exprAt, getD_append_self]
    · rintro rfl
      simp [place_to_expr, seq, St.addExpr, St.exprAt, getD_append_self]
    · rintro rfl
      simp [place_to_expr, seq, St.addExpr, St.exprAt, getD_append_self]
    · rintro rfl
      simp [place_to_expr, seq, St.addExpr, St.exprAt, getD_append_self]
    · rintro rfl
      constructor <;>
        simp [place_to_expr, seq, St.addExpr, St.exprAt, getD_append_self]
  · intro fuel ctx e m1 m2 sc st h
    match fuel with
    | 0 => rfl
    | fuel + 1 =>
      cases e <;> first
        | rfl
        | (exfalso; simp [mode_insensitive_head] at h)

/-- Counterexample to C3 as stated: `if true { x } else { x }` is not a
place expression, yet its validation differs between `My` mode and
`Leased` mode, because `If` propagates the mode into its branches (the
branches coerce `x` to `Give` vs `Lease`). -/
theorem c3_mode_counterexample :
    (validate_expr_in_mode 10 ctx0
        (.If (.BooleanLiteral true) (.Id ("x")) (some (.Id ("x"))))
        (.Specifier .My) scX St.empty).2.2.exprs ≠
      (validate_expr_in_mode 10 ctx0
        (.If (.BooleanLiteral true) (.Id ("x")) (some (.Id ("x"))))
        (.Specifier .Leased) scX St.empty).2.2.exprs ∧
    is_place_expression (.If (.BooleanLiteral true) (.Id ("x")) (some (.Id ("x")))) = false := by
  constructor
  · decide
  · rfl

/-- Witness for C3: the coercion table evaluated at the concrete scope
binding `x`, under `Our` mode, the dot access `x.f` under `Leased` mode,
plus mode-independence of a literal. -/
theorem c3_bare_place_mode_table_witness :
    Scope.lookup scX ("x") = some (Definition.LocalVariable 0) ∧
    (validate_expr_in_mode 2 ctx0 (.Id ("x")) (.Specifier .Our) scX St.empty).2.2.exprAt
        (validate_expr_in_mode 2 ctx0 (.Id ("x")) (.Specifier .Our) scX St.empty).1 =
      .Share 0 ∧
    (validate_expr_in_mode 3 ctx0 (.Dot (.Id ("x")) ("f")) (.Specifier .Leased) scX
        St.empty).2.2.exprAt
        (validate_expr_in_mode 3 ctx0 (.Dot (.Id ("x")) ("f")) (.Specifier .Leased) scX
          St.empty).1 =
      .Lease 1 ∧
    (validate_expr_in_mode 3 ctx0 (.Dot (.Id ("x")) ("f")) ExprMode.Reserve scX
        St.empty).2.2.exprAt
        (validate_expr_in_mode 3 ctx0 (.Dot (.Id ("x")) ("f")) ExprMode.Reserve scX
          St.empty).1 =
      .Reserve 1 ∧
    mode_insensitive_head (.BooleanLiteral true) = true ∧
    validate_expr_in_mode 3 ctx0 (.BooleanLiteral true) (.Specifier .My) scX St.empty =
      validate_expr_in_mode 3 ctx0 (.BooleanLiteral true) (.Specifier .Our) scX St.empty := by
  refine ⟨by decide, ?_, ?_, ?_, by decide, ?_⟩
  · have h := (c3_bare_place_mode_table.1 0 ctx0 scX St.empty ("x")
      (Definition.LocalVariable 0) (.Specifier .Our) (by decide)).2.2.2.2.2 rfl
    exact h.1
  · exact (c3_bare_place_mode_table.2.1 0 ctx0 scX St.empty ("x") ("f")
      (Definition.LocalVariable 0) (.Specifier .Leased) (by decide)).2.2.2.1 rfl
  · exact (c3_bare_place_mode_table.2.2.1 2 ctx0 (.Dot (.Id ("x")) ("f"))
      ExprMode.Reserve scX St.empty 1
      (validate_expr_as_place 2 ctx0 (.Dot (.Id ("x")) ("f")) scX St.empty).2.1
      (validate_expr_as_place 2 ctx0 (.Dot (.Id ("x")) ("f")) scX St.empty).2.2
      trivial rfl).2.2.2.1 rfl
  · exact c3_bare_place_mode_table.2.2.2 3 ctx0 (.BooleanLiteral true)
      (.Specifier .My) (.Specifier .Our) scX St.empty (by decide)

/-! ## C4 — assignments to non-place left-hand sides -/

/-- Strip parenthesization (the `Parenthesized` recursion of
`validate_expr_as_target_place`). -/
def stripParens : SynExpr → SynExpr
  | .Parenthesized inner => stripParens inner
  | e => e

/-- Number of parenthesization layers. -/
def parenDepth : SynExpr → Nat
  | .Parenthesized inner => parenDepth inner + 1
  | _ => 0

/-- An assignable left-hand side: an identifier, a dot expression, or a
parenthesization of one of those. -/
def assignable_shape : SynExpr → Bool
  | .Id _ => true
  | .Dot _ _ => true
  | .Parenthesized inner => assignable_shape inner
  | _ => false

/-- On a non-assignable shape, `validate_expr_as_target_place` strips
parens, validates the offending expression itself in give mode (keeping
all state it produced), emits the arbitrary-expression diagnostic, and
reports an error. -/
theorem vetp_not_assignable : ∀ (dep : Nat) (e : SynExpr), parenDepth e = dep →
    assignable_shape e = false →
    ∀ (fuel : Nat) (ctx : Ctx) (m : ExprMode) (sc : Scope) (st : St),
    validate_expr_as_target_place (fuel + 1 + dep) ctx e m sc st =
      (let (_, sc1, st1) :=
        validate_expr_in_mode fuel ctx (stripParens e) ExprMode.give sc st
       (none, sc1, st1.addDiag .AssignToArbitraryExpr)) := by
  intro dep
  induction dep with
  | zero =>
    intro e hd hs fuel ctx m sc st
    cases e <;> simp_all [parenDepth, assignable_shape] <;> rfl
  | succ d ih =>
    intro e hd hs fuel ctx m sc st
    cases e <;> simp_all [parenDepth, assignable_shape]
    rename_i inner
    have : fuel + 1 + (d + 1) = (fuel + 1 + d) + 1 := by omega
    rw [this]
    show validate_expr_as_target_place (fuel + 1 + d) ctx inner m sc st = _
    exact ih inner hd hs fuel ctx m sc st

/-- C4 (amended): when the lhs of an assignment is neither an identifier,
a dot expression, nor a parenthesization of one, validation emits the
diagnostic "you can only assign to local variables and fields, not
arbitrary expressions", the *lhs* is still validated as an expression (so
diagnostics inside the lhs are surfaced — the rhs is not validated, contra
the claim; see the counterexample), and the assignment validates to an
`Error` expression. -/
theorem c4_bad_lhs_assignment (fuel : Nat) (ctx : Ctx) (lhs rhs : SynExpr) (m : ExprMode)
    (sc : Scope) (st : St) (h : assignable_shape lhs = false) :
    validate_expr_in_mode (fuel + 2 + parenDepth lhs) ctx (.Assign lhs rhs) m sc st =
      (let (_, sc1, st1) :=
        validate_expr_in_mode fuel ctx (stripParens lhs) ExprMode.give sc st
       let st2 := st1.addDiag .AssignToArbitraryExpr
       let (r, st3) := st2.addExpr ctx.synthesized .Error (ExprOrigin.real (.Assign lhs rhs))
       (r, sc1, st3)) ∧
    (validate_expr_in_mode (fuel + 2 + parenDepth lhs) ctx (.Assign lhs rhs) m sc st).2.2.exprAt
        (validate_expr_in_mode (fuel + 2 + parenDepth lhs) ctx (.Assign lhs rhs) m sc st).1 =
      .Error ∧
    Diag.AssignToArbitraryExpr ∈
      (validate_expr_in_mode (fuel + 2 + parenDepth lhs) ctx (.Assign lhs rhs) m sc st).2.2.diags := by
  have harith : fuel + 2 + parenDepth lhs = (fuel + 1 + parenDepth lhs) + 1 := by omega
  have hv := vetp_not_assignable (parenDepth lhs) lhs rfl h
    fuel ctx .Reserve sc st
  refine ⟨?_, ?_, ?_⟩ <;> rw [harith] <;>
    simp only [validate_expr_in_mode, hv] <;>
    simp [or_error, St.addExpr, St.exprAt, St.addDiag, getD_append_self]

/-- Counterexample to C4 as stated: for `1 = zz` (lhs a literal, rhs an
unresolvable identifier) the only diagnostic is the arbitrary-expression
one — the rhs is never validated, so the name error for `zz` it would
produce is not surfaced, contradicting the claim that the rhs of the
assignment is still validated. -/
theorem c4_rhs_not_validated_counterexample :
    (validate_expr_in_mode 10 ctx0 (.Assign (.IntegerLiteral ("1") none) (.Id ("zz")))
        ExprMode.give scX St.empty).2.2.diags = [Diag.AssignToArbitraryExpr] ∧
    Diag.NameNotFound ("zz") ∉
      (validate_expr_in_mode 10 ctx0 (.Assign (.IntegerLiteral ("1") none) (.Id ("zz")))
        ExprMode.give scX St.empty).2.2.diags ∧
    Scope.lookup scX ("zz") = none := by
  refine ⟨by decide, by decide, by decide⟩

/-- Witness for C4 at `true = 1`: the diagnostic is emitted and the
assignment validates to an `Error` expression. -/
theorem c4_bad_lhs_assignment_witness :
    assignable_shape (.BooleanLiteral true) = false ∧
    (validate_expr_in_mode 2 ctx0 (.Assign (.BooleanLiteral true) (.IntegerLiteral ("1") none))
        ExprMode.give [] St.empty).2.2.exprAt
      (validate_expr_in_mode 2 ctx0
        (.Assign (.BooleanLiteral true) (.IntegerLiteral ("1") none))
        ExprMode.give [] St.empty).1 = .Error ∧
    Diag.AssignToArbitraryExpr ∈
      (validate_expr_in_mode 2 ctx0
        (.Assign (.BooleanLiteral true) (.IntegerLiteral ("1") none))
        ExprMode.give [] St.empty).2.2.diags := by
  refine ⟨by decide, ?_, ?_⟩
  · exact (c4_bad_lhs_assignment 0 ctx0 (.BooleanLiteral true) (.IntegerLiteral ("1") none)
      ExprMode.give [] St.empty (by decide)).2.1
  · exact (c4_bad_lhs_assignment 0 ctx0 (.BooleanLiteral true) (.IntegerLiteral ("1") none)
      ExprMode.give [] St.empty (by decide)).2.2

/-! ## C7 — string-literal dedenting -/

/-- The common prefix is never longer than the left argument. -/
theorem count_le_left : ∀ l1 l2 : List Char, count_bytes_in_common l1 l2 ≤ l1.length := by
  intro l1
  induction l1 with
  | nil => intro l2; cases l2 <;> simp [count_bytes_in_common]
  | cons c t ih =>
    intro l2
    cases l2 with
    | nil => simp [count_bytes_in_common]
    | cons d t2 =>
      by_cases h : c = d <;> simp [count_bytes_in_common, h]
      exact ih t2

/-- A `takeWhile` prefix is in full common with its source list. -/
theorem count_takeWhile (p : Char → Bool) :
    ∀ l : List Char, count_bytes_in_common (l.takeWhile p) l = (l.takeWhile p).length := by
  intro l
  induction l with
  | nil => rfl
  | cons c t ih =>
    by_cases h : p c <;> simp [List.takeWhile_cons, h, count_bytes_in_common]
    exact ih

/-- Spec-side dedent for multi-line strings, following the spec's words:
take the non-blank lines; compute the longest whitespace prefix they all
share with the first non-blank line (the minimum, over the non-blank
lines, of the common prefix with the first line's whitespace prefix);
strip it from every non-blank line, leave blank lines as they are; then
trim leading/trailing whitespace of the whole. -/
def dedentSpec (s : List Char) : List Char :=
  match (rustLines s).filter (fun l => ¬ isBlank l) with
  | [] => []
  | firstLine :: _ =>
    let pfx := firstLine.takeWhile rustIsWhitespace
    let common := ((((rustLines s).filter (fun l => ¬ isBlank l)).map
        (fun l => count_bytes_in_common pfx l)).min?).getD 0
    trimChars (joinNl ((rustLines s).map
      (fun line => if isBlank line then line else line.drop common)))

/-! ## C8 — dedent idempotence: supporting lemmas -/

/-- Escape processing is the identity on backslash-free strings. -/
theorem support_escape_id : ∀ l : List Char, (∀ c ∈ l, c ≠ '\\') → support_escape l = l := by
  intro l
  induction l with
  | nil => intro _; rfl
  | cons c rest ih =>
    intro h
    have hc : c ≠ '\\' := h c (by simp)
    cases rest with
    | nil => simp [support_escape, hc]
    | cons d rest' =>
      simp only [support_escape, if_neg hc]
      rw [ih (fun x hx => h x (by simp [hx]))]

/-- `getLast?` of a nonempty list yields a member. -/
theorem mem_of_getLast?_eq {α : Type} {l : List α} {a : α} (h : l.getLast? = some a) :
    a ∈ l := by
  cases l with
  | nil => simp at h
  | cons x xs =>
    rw [List.getLast?_eq_getLast _ (by simp)] at h
    exact (Option.some_inj.mp h) ▸ List.getLast_mem _

/-- The head surviving `dropWhile` fails the predicate. -/
theorem dropWhile_head_false (p : Char → Bool) :
    ∀ (l : List Char) (c : Char) (t : List Char), l.dropWhile p = c :: t → p c = false := by
  intro l
  induction l with
  | nil => intro c t h; simp at h
  | cons x xs ih =>
    intro c t h
    by_cases hx : p x
    · rw [List.dropWhile_cons, if_pos hx] at h
      exact ih c t h
    · rw [List.dropWhile_cons, if_neg hx] at h
      cases h
      simpa using hx

/-- If the head passes muster, `dropWhile` keeps everything. -/
theorem dropWhile_eq_self_of_head (p : Char → Bool) (l : List Char)
    (h : ∀ c, l.head? = some c → p c = false) : l.dropWhile p = l := by
  cases l with
  | nil => rfl
  | cons x xs => rw [List.dropWhile_cons, if_neg (by simp [h x rfl])]

/-- Characters of the trimmed string are characters of the original. -/
theorem trim_subset (l : List Char) : ∀ c ∈ trimChars l, c ∈ l := by
  intro c hc
  unfold trimChars at hc
  rw [List.mem_reverse] at hc
  have h1 := (List.dropWhile_sublist (l := (l.dropWhile rustIsWhitespace).reverse)
    rustIsWhitespace).subset hc
  rw [List.mem_reverse] at h1
  exact (List.dropWhile_sublist rustIsWhitespace).subset h1

/-- The first character of a trimmed string is not whitespace. -/
theorem trim_head_false (l : List Char) (c : Char) (h : (trimChars l).head? = some c) :
    rustIsWhitespace c = false := by
  unfold trimChars at h
  set m := l.dropWhile rustIsWhitespace with hm
  set kept := m.reverse.dropWhile rustIsWhitespace with hkept
  have hsplit : m = kept.reverse ++ (m.reverse.takeWhile rustIsWhitespace).reverse := by
    rw [← List.reverse_append, List.takeWhile_append_dropWhile, List.reverse_reverse]
  have hmhead : m.head? = some c := by
    rw [hsplit, List.head?_append, h]
    rfl
  cases hm' : m with
  | nil => rw [hm'] at hmhead; simp at hmhead
  | cons x xs =>
    rw [hm'] at hmhead
    have : x = c := by simpa using hmhead
    subst this
    exact dropWhile_head_false rustIsWhitespace l x xs (hm ▸ hm')

/-- The last character of a trimmed string is not whitespace. -/
theorem trim_getLast_false (l : List Char) (c : Char)
    (h : (trimChars l).getLast? = some c) : rustIsWhitespace c = false := by
  unfold trimChars at h
  rw [List.getLast?_reverse] at h
  cases hk : (l.dropWhile rustIsWhitespace).reverse.dropWhile rustIsWhitespace with
  | nil => rw [hk] at h; simp at h
  | cons x xs =>
    rw [hk] at h
    have : x = c := by simpa using h
    subst this
    exact dropWhile_head_false rustIsWhitespace _ x xs hk

/-- A string whose first and last characters are not whitespace is fixed
by trimming. -/
theorem trim_eq_self (l : List Char)
    (hh : ∀ c, l.head? = some c → rustIsWhitespace c = false)
    (hl : ∀ c, l.getLast? = some c → rustIsWhitespace c = false) : trimChars l = l := by
  unfold trimChars
  rw [dropWhile_eq_self_of_head rustIsWhitespace l hh]
  rw [dropWhile_eq_self_of_head rustIsWhitespace l.reverse
    (fun c hc => hl c (by rw [← List.reverse_reverse l, List.getLast?_reverse]; exact hc))]
  exact List.reverse_reverse l

/-- `splitNl` never returns the empty list of pieces. -/
theorem splitNl_ne_nil : ∀ l : List Char, splitNl l ≠ [] := by
  intro l
  cases l with
  | nil => simp [splitNl]
  | cons c rest =>
    unfold splitNl
    by_cases h : c = '\n' <;> simp only [h, if_pos, if_neg, reduceIte]
    · simp
    · rcases splitNl rest with _ | ⟨h', t'⟩ <;> simp

/-- Joining the pieces of `splitNl` with newlines restores the string. -/
theorem joinNl_splitNl : ∀ l : List Char, joinNl (splitNl l) = l := by
  intro l
  induction l with
  | nil => rfl
  | cons c rest ih =>
    unfold splitNl
    by_cases h : c = '\n'
    · rw [if_pos h]
      rcases hs : splitNl rest with _ | ⟨h', t'⟩
      · exact absurd hs (splitNl_ne_nil rest)
      · show joinNl ([] :: h' :: t') = c :: rest
        show [] ++ '\n' :: joinNl (h' :: t') = c :: rest
        rw [← hs, ih, h]
        rfl
    · rw [if_neg h]
      rcases hs : splitNl rest with _ | ⟨h', t'⟩
      · exact absurd hs (splitNl_ne_nil rest)
      · show joinNl ((c :: h') :: t') = c :: rest
        rcases t' with _ | ⟨u, us⟩
        · show c :: h' = c :: rest
          have : joinNl (splitNl rest) = rest := ih
          rw [hs] at this
          simpa using this
        · show (c :: h') ++ '\n' :: joinNl (u :: us) = c :: rest
          have : joinNl (splitNl rest) = rest := ih
          rw [hs] at this
          show c :: (h' ++ '\n' :: joinNl (u :: us)) = c :: rest
          rw [show h' ++ '\n' :: joinNl (u :: us) = joinNl (h' :: u :: us) from rfl, this]

/-- Characters of any piece of `splitNl` come from the original string. -/
theorem mem_splitNl_mem :
    ∀ (l : List Char) (piece : List Char), piece ∈ splitNl l → ∀ c ∈ piece, c ∈ l := by
  intro l
  induction l with
  | nil =>
    intro piece hp c hc
    simp [splitNl] at hp
    subst hp
    simp at hc
  | cons x rest ih =>
    intro piece hp c hc
    unfold splitNl at hp
    by_cases h : x = '\n'
    · rw [if_pos h] at hp
      rcases List.mem_cons.mp hp with hp | hp
      · subst hp; simp at hc
      · exact List.mem_cons_of_mem _ (ih piece hp c hc)
    · rw [if_neg h] at hp
      rcases hs : splitNl rest with _ | ⟨h', t'⟩
      · exact absurd hs (splitNl_ne_nil rest)
      · rw [hs] at hp
        rcases List.mem_cons.mp hp with hp | hp
        · subst hp
          rcases List.mem_cons.mp hc with hc | hc
          · simp [hc]
          · exact List.mem_cons_of_mem _ (ih h' (hs ▸ List.mem_cons_self _ _) c hc)
        · exact List.mem_cons_of_mem _ (ih piece (hs ▸ List.mem_cons_of_mem _ hp) c hc)

/-- The first piece of `splitNl` is the run of characters before the first
newline. -/
theorem splitNl_head? :
    ∀ l : List Char, (splitNl l).head? = some (l.takeWhile (fun c => c ≠ '\n')) := by
  intro l
  induction l with
  | nil => rfl
  | cons c rest ih =>
    unfold splitNl
    by_cases h : c = '\n'
    · rw [if_pos h]
      simp [List.takeWhile_cons, h]
    · rw [if_neg h]
      rcases hs : splitNl rest with _ | ⟨h', t'⟩
      · exact absurd hs (splitNl_ne_nil rest)
      · rw [hs] at ih
        simp only [List.head?_cons, Option.some_inj] at ih
        simp [List.takeWhile_cons, h, ih]

/-- If the string does not end in a newline, the last piece of `splitNl`
is nonempty. -/
theorem splitNl_getLast_ne_nil :
    ∀ (l : List Char), l ≠ [] → l.getLast? ≠ some '\n' →
      ∃ piece, (splitNl l).getLast? = some piece ∧ piece ≠ [] := by
  intro l
  induction l with
  | nil => intro h; exact absurd rfl h
  | cons x rest ih =>
    intro _ hlast
    cases rest with
    | nil =>
      have hx : x ≠ '\n' := fun hx => hlast (by simp [hx])
      refine ⟨[x], ?_, by simp⟩
      simp [splitNl, hx]
    | cons y ys =>
      have hlast' : (y :: ys).getLast? ≠ some '\n' := by
        rwa [List.getLast?_cons_cons] at hlast
      obtain ⟨piece, hp, hpne⟩ := ih (by simp) hlast'
      unfold splitNl
      by_cases h : x = '\n'
      · rw [if_pos h]
        refine ⟨piece, ?_, hpne⟩
        rcases hs : splitNl (y :: ys) with _ | ⟨h', t'⟩
        · exact absurd hs (splitNl_ne_nil _)
        · rw [hs] at hp
          rw [List.getLast?_cons_cons, hp]
      · rw [if_neg h]
        rcases hs : splitNl (y :: ys) with _ | ⟨h', t'⟩
        · exact absurd hs (splitNl_ne_nil _)
        · rw [hs] at hp
          rcases t' with _ | ⟨u, us⟩
          · exact ⟨x :: h', by simp, by simp⟩
          · refine ⟨piece, ?_, hpne⟩
            rw [List.getLast?_cons_cons] at hp ⊢
            exact hp

/-- A blank line consists of whitespace only. -/
theorem isBlank_all_ws (l : List Char) (h : isBlank l = true) :
    ∀ c ∈ l, rustIsWhitespace c = true := by
  intro c hc
  unfold isBlank trimChars at h
  simp only [decide_eq_true_eq] at h
  rw [List.reverse_eq_nil_iff, List.dropWhile_eq_nil_iff] at h
  have hc' : c ∈ List.takeWhile rustIsWhitespace l ++ List.dropWhile rustIsWhitespace l := by
    rw [List.takeWhile_append_dropWhile]
    exact hc
  rcases List.mem_append.mp hc' with h1 | h1
  · exact List.mem_takeWhile_imp h1
  · exact h c (List.mem_reverse.mpr h1)

/-- A line whose head is not whitespace is not blank. -/
theorem not_blank_of_head (c : Char) (t : List Char) (h : rustIsWhitespace c = false) :
    isBlank (c :: t) = false := by
  by_contra hb
  have := isBlank_all_ws (c :: t) (by revert hb; cases isBlank (c :: t) <;> simp)
  rw [this c (by simp)] at h
  cases h

/-- The common prefix with an empty left argument is zero. -/
theorem count_nil (l : List Char) : count_bytes_in_common [] l = 0 := by
  cases l <;> rfl

/-- The minimum of a list of zeros (or of nothing) defaults to zero. -/
theorem min_getD_zero : ∀ xs : List Nat, (∀ x ∈ xs, x = 0) → (xs.min?).getD 0 = 0 := by
  intro xs h
  cases xs with
  | nil => rfl
  | cons a l =>
    show (some (List.foldl min a l)).getD 0 = 0
    simp only [Option.getD_some]
    have ha : a = 0 := h a (by simp)
    have hall : ∀ x ∈ l, x = 0 := fun x hx => h x (by simp [hx])
    clear h
    induction l generalizing a with
    | nil => simpa using ha
    | cons x t ih =>
      have hx : x = 0 := hall x (by simp)
      exact ih (min a x) (by simp [ha, hx]) (fun y hy => hall y (by simp [hy]))

/-- Without carriage returns and without a trailing newline, `rustLines`
is exactly `splitNl`. -/
theorem rustLines_eq_splitNl (l : List Char) (hne : l ≠ []) (hcr : '\r' ∉ l)
    (hlast : l.getLast? ≠ some '\n') : rustLines l = splitNl l := by
  obtain ⟨piece, hp, hpne⟩ := splitNl_getLast_ne_nil l hne hlast
  have hstrip : ∀ q ∈ splitNl l, stripCr q = q := by
    intro q hq
    unfold stripCr
    rw [if_neg]
    intro hcontra
    exact hcr (mem_splitNl_mem l q hq '\r' (mem_of_getLast?_eq hcontra))
  have hmap : (splitNl l).dropLast.map stripCr = (splitNl l).dropLast := by
    have : (splitNl l).dropLast.map stripCr = (splitNl l).dropLast.map id :=
      List.map_congr_left (fun q hq =>
        hstrip q ((List.dropLast_sublist (splitNl l)).subset hq))
    simpa using this
  rcases hpc : piece with _ | ⟨c, t⟩
  · exact absurd hpc hpne
  · subst hpc
    simp only [rustLines]
    rw [hmap, hp]
    show (splitNl l).dropLast ++ [c :: t] = splitNl l
    have hne' : splitNl l ≠ [] := splitNl_ne_nil l
    have hgl : (splitNl l).getLast hne' = c :: t := by
      rw [List.getLast?_eq_getLast _ hne'] at hp
      exact Option.some_inj.mp hp
    rw [← hgl]
    exact List.dropLast_append_getLast hne'

/-- Every character of a joined line list is a newline or comes from one
of the lines. -/
theorem mem_joinNl : ∀ (ls : List (List Char)) (c : Char), c ∈ joinNl ls →
    c = '\n' ∨ ∃ line ∈ ls, c ∈ line := by
  intro ls
  induction ls with
  | nil => intro c hc; simp [joinNl] at hc
  | cons l rest ih =>
    intro c hc
    cases rest with
    | nil =>
      right
      exact ⟨l, by simp, hc⟩
    | cons m ms =>
      have hc2 : c ∈ l ++ '\n' :: joinNl (m :: ms) := hc
      rcases List.mem_append.mp hc2 with h1 | h1
      · exact Or.inr ⟨l, by simp, h1⟩
      · rcases List.mem_cons.mp h1 with h2 | h2
        · exact Or.inl h2
        · rcases ih c h2 with h3 | ⟨line, hl, hcl⟩
          · exact Or.inl h3
          · exact Or.inr ⟨line, by simp [hl], hcl⟩

/-- Characters of every `rustLines` line come from the original string. -/
theorem mem_rustLines_mem (l : List Char) (line : List Char) (hl : line ∈ rustLines l) :
    ∀ c ∈ line, c ∈ l := by
  intro c hc
  simp only [rustLines] at hl
  have hinit : ∀ q, q ∈ (splitNl l).dropLast.map stripCr → ∀ x ∈ q, x ∈ l := by
    intro q hq x hx
    rcases List.mem_map.mp hq with ⟨piece, hpmem, hpe⟩
    subst hpe
    have hxmem : x ∈ piece := by
      unfold stripCr at hx
      by_cases hpr : piece.getLast? = some '\r'
      · rw [if_pos hpr] at hx
        exact (List.dropLast_sublist piece).subset hx
      · rwa [if_neg hpr] at hx
    exact mem_splitNl_mem l piece ((List.dropLast_sublist (splitNl l)).subset hpmem) x hxmem
  rcases hg : (splitNl l).getLast? with _ | lp
  · rw [hg] at hl; simp at hl
  · rw [hg] at hl
    rcases hlp : lp with _ | ⟨x, xs⟩
    · rw [hlp] at hl
      exact hinit line hl c hc
    · rw [hlp] at hl
      have hl2 : line ∈ (splitNl l).dropLast.map stripCr ++ [x :: xs] := hl
      rcases List.mem_append.mp hl2 with h1 | h1
      · exact hinit line h1 c hc
      · have : line = x :: xs := by simpa using h1
        subst this
        exact mem_splitNl_mem l (x :: xs) (mem_of_getLast?_eq (hlp ▸ hg)) c hc

/-- A backslash-free, carriage-return-free string with no leading or
trailing whitespace is a fixed point of `convertChars`: the second pass
finds a zero common indent (the first line starts with a non-whitespace
character), reassembles the very same lines, and trims and
escape-processes vacuously. -/
theorem convert_fixed (t : List Char)
    (hbs : ∀ c ∈ t, c ≠ '\\')
    (hcr : '\r' ∉ t)
    (hhead : ∀ c, t.head? = some c → rustIsWhitespace c = false)
    (hlast : ∀ c, t.getLast? = some c → rustIsWhitespace c = false) :
    convertChars t = t := by
  by_cases h1 : (rustLines t).length = 1
  · unfold convertChars
    rw [if_pos h1]
    exact support_escape_id t hbs
  · cases t with
    | nil => decide
    | cons x xs =>
      have hx : rustIsWhitespace x = false := hhead x rfl
      have hxn : x ≠ '\n' := by
        intro hcontra
        rw [hcontra] at hx
        exact absurd hx (by decide)
      have hlastchar : (x :: xs).getLast? ≠ some '\n' := by
        intro hcontra
        exact absurd (hlast '\n' hcontra) (by decide)
      have hrl : rustLines (x :: xs) = splitNl (x :: xs) :=
        rustLines_eq_splitNl _ (by simp) hcr hlastchar
      rcases hsp : splitNl (x :: xs) with _ | ⟨p0, rest⟩
      · exact absurd hsp (splitNl_ne_nil _)
      · have hp0 : p0 = x :: xs.takeWhile (fun c => c ≠ '\n') := by
          have hhd := splitNl_head? (x :: xs)
          rw [hsp] at hhd
          simp only [List.head?_cons, Option.some_inj] at hhd
          rw [hhd, List.takeWhile_cons, if_pos (by simp [hxn])]
        have hnb : isBlank p0 = false := by
          rw [hp0]
          exact not_blank_of_head x _ hx
        have hpfx : p0.takeWhile rustIsWhitespace = [] := by
          rw [hp0, List.takeWhile_cons, if_neg (by simp [hx])]
        have hfil : (rustLines (x :: xs)).filter (fun l => ¬ isBlank l) =
            p0 :: rest.filter (fun l => ¬ isBlank l) := by
          rw [hrl, hsp, List.filter_cons, if_pos (by simp [hnb])]
        unfold convertChars
        rw [if_neg h1, hfil]
        show support_escape (trimChars (joinNl ((rustLines (x :: xs)).map
          (fun line => if isBlank line then line else
            line.drop ((((rest.filter (fun l => ¬ isBlank l)).map
              (fun l => count_bytes_in_common (p0.takeWhile rustIsWhitespace) l)).min?).getD 0))))) =
          x :: xs
        rw [hpfx]
        have hcommon : ((((rest.filter (fun l => ¬ isBlank l)).map
            (fun l => count_bytes_in_common [] l)).min?).getD 0) = 0 := by
          apply min_getD_zero
          intro v hv
          rcases List.mem_map.mp hv with ⟨q, _, hq⟩
          rw [← hq, count_nil]
        rw [hcommon]
        have hmap : (rustLines (x :: xs)).map
            (fun line => if isBlank line then line else line.drop 0) = rustLines (x :: xs) := by
          have h0 : ∀ line ∈ rustLines (x :: xs),
              (if isBlank line then line else line.drop 0) = id line := by
            intro line _
            by_cases hb : isBlank line <;> simp [hb]
          rw [List.map_congr_left h0, List.map_id]
        rw [hmap, hrl, joinNl_splitNl, trim_eq_self _ hhead hlast]
        exact support_escape_id _ hbs

/-- The multi-line branch of `convertChars` yields either the empty string
or an escape-processed trim of a buffer whose characters come from the
input or are newlines. -/
theorem convert_output_form (s : List Char) (h1 : (rustLines s).length ≠ 1) :
    convertChars s = [] ∨
    ∃ b, convertChars s = support_escape (trimChars b) ∧ (∀ c ∈ b, c ∈ s ∨ c = '\n') := by
  unfold convertChars
  rw [if_neg h1]
  rcases hf : (rustLines s).filter (fun l => ¬ isBlank l) with _ | ⟨first, others⟩
  · exact Or.inl rfl
  · right
    refine ⟨_, rfl, ?_⟩
    intro c hc
    rcases mem_joinNl _ c hc with hcn | ⟨line, hline, hcl⟩
    · exact Or.inr hcn
    · left
      rcases List.mem_map.mp hline with ⟨orig, horig, hEq⟩
      have hcorig : c ∈ orig := by
        rw [← hEq] at hcl
        by_cases hb : isBlank orig
        · simpa [hb] using hcl
        · exact List.drop_subset _ _ (by simpa [hb] using hcl)
      exact mem_rustLines_mem s orig horig c hcorig

/-! ## Byte-level fidelity of the string pipeline

The Rust dedent counts its common indent in UTF-8 bytes and slices lines
at byte indices, so the char-granularity model above is adequate only
where no slice can split a character.  The lemmas below relate the
byte-faithful `convertCharsBytes` to `convertChars`: on ASCII input the
two agree, while off ASCII the byte model exhibits the reachable slice
panic (see the C7 theorem). -/

/-- Chars with equal scalar values are equal. -/
theorem char_toNat_inj {a b : Char} (h : a.toNat = b.toNat) : a = b := by
  have h2 := congrArg Char.ofNat h
  rwa [Char.ofNat_toNat, Char.ofNat_toNat] at h2

/-- The defaulted minimum of a list of naturals bounds every member. -/
theorem min_getD_le {l : List Nat} {a : Nat} (h : a ∈ l) : (l.min?).getD 0 ≤ a := by
  rcases hm : l.min? with _ | m
  · rw [List.min?_eq_none_iff] at hm
    subst hm
    simp at h
  · simpa using (List.min?_eq_some_iff'.mp hm).2 a h

/-- The common prefix is never longer than the right argument. -/
theorem count_le_right : ∀ l1 l2 : List Char, count_bytes_in_common l1 l2 ≤ l2.length := by
  intro l1
  induction l1 with
  | nil => intro l2; cases l2 <;> simp [count_bytes_in_common]
  | cons c t ih =>
    intro l2
    cases l2 with
    | nil => simp [count_bytes_in_common]
    | cons d t2 =>
      by_cases h : c = d <;> simp [count_bytes_in_common, h]
      exact ih t2

/-- ASCII chars encode to their single scalar byte. -/
theorem utf8Bytes_ascii (c : Char) (h : c.toNat < 128) : utf8Bytes c = [c.toNat] := by
  simp [utf8Bytes, h]

/-- On ASCII text, `as_bytes` is the scalar values, one byte per char. -/
theorem strBytes_ascii : ∀ l : List Char, (∀ c ∈ l, c.toNat < 128) →
    strBytes l = l.map Char.toNat := by
  intro l
  induction l with
  | nil => intro _; rfl
  | cons c t ih =>
    intro h
    have ht := ih (fun d hd => h d (by simp [hd]))
    simp only [strBytes, List.map_cons, List.flatten_cons] at ht ⊢
    rw [utf8Bytes_ascii c (h c (by simp)), ht]
    rfl

/-- Byte-level and char-level common-prefix counts agree one byte per
char. -/
theorem countBytesCommon_ascii : ∀ a b : List Char,
    countBytesCommon (a.map Char.toNat) (b.map Char.toNat) = count_bytes_in_common a b := by
  intro a
  induction a with
  | nil => intro b; cases b <;> rfl
  | cons c t ih =>
    intro b
    cases b with
    | nil => rfl
    | cons d u =>
      simp only [List.map_cons, countBytesCommon, count_bytes_in_common]
      by_cases h : c = d
      · rw [if_pos (by rw [h]), if_pos h, ih]
      · rw [if_neg (fun hn => h (char_toNat_inj hn)), if_neg h]

/-- Byte-dropping a boundary-respecting count is plain char-dropping on
ASCII lines. -/
theorem byteDrop_ascii : ∀ (l : List Char) (k : Nat), (∀ c ∈ l, c.toNat < 128) →
    k ≤ l.length → byteDrop l k = some (l.drop k) := by
  intro l
  induction l with
  | nil =>
    intro k _ hk
    cases k with
    | zero => rfl
    | succ k2 => simp at hk
  | cons c t ih =>
    intro k h hk
    cases k with
    | zero => rfl
    | succ k2 =>
      have hlen : (utf8Bytes c).length = 1 := by
        rw [utf8Bytes_ascii c (h c (by simp))]
        rfl
      show (if (utf8Bytes c).length ≤ k2 + 1 then
          byteDrop t (k2 + 1 - (utf8Bytes c).length) else none) = some ((c :: t).drop (k2 + 1))
      rw [hlen, if_pos (by omega)]
      have h2 : k2 + 1 - 1 = k2 := rfl
      rw [h2, ih k2 (fun d hd => h d (by simp [hd])) (by simpa using hk)]
      rfl

/-- The dedent loop at byte fidelity succeeds and is the char-level loop
on ASCII lines whose length bounds the indent. -/
theorem dropLinesBytes_ascii (common : Nat) : ∀ ls : List (List Char),
    (∀ l ∈ ls, ∀ c ∈ l, c.toNat < 128) →
    (∀ l ∈ ls, isBlank l = false → common ≤ l.length) →
    dropLinesBytes common ls =
      some (ls.map (fun line => if isBlank line then line else line.drop common)) := by
  intro ls
  induction ls with
  | nil => intro _ _; rfl
  | cons l rest ih =>
    intro h hb
    have hr := ih (fun q hq => h q (by simp [hq])) (fun q hq hqb => hb q (by simp [hq]) hqb)
    by_cases hbl : isBlank l
    · simp only [dropLinesBytes]
      rw [hr, if_pos hbl]
      simp [hbl]
    · simp only [dropLinesBytes]
      rw [hr, if_neg hbl,
        byteDrop_ascii l common (h l (by simp)) (hb l (by simp) (by simpa using hbl))]
      simp [hbl]

/-- On ASCII input the byte-faithful conversion agrees with the
char-granularity model: every byte index lands on a char boundary. -/
theorem convertCharsBytes_ascii : ∀ s : List Char, (∀ c ∈ s, c.toNat < 128) →
    convertCharsBytes s = some (convertChars s) := by
  intro s hA
  by_cases h1 : (rustLines s).length = 1
  · unfold convertCharsBytes convertChars
    rw [if_pos h1, if_pos h1]
  · unfold convertCharsBytes convertChars
    rw [if_neg h1, if_neg h1]
    rcases hf : (rustLines s).filter (fun l => ¬ isBlank l) with _ | ⟨first, others⟩
    · rfl
    · have hlineA : ∀ l ∈ rustLines s, ∀ c ∈ l, c.toNat < 128 :=
        fun l hl c hc => hA c (mem_rustLines_mem s l hl c hc)
      have hfirstMem : first ∈ rustLines s := by
        have hm : first ∈ (rustLines s).filter (fun q => ¬ isBlank q) := by
          rw [hf]
          exact List.mem_cons_self _ _
        exact (List.mem_filter.mp hm).1
      have hpfxA : ∀ c ∈ first.takeWhile rustIsWhitespace, c.toNat < 128 :=
        fun c hc => hlineA first hfirstMem c ((List.takeWhile_sublist _).mem hc)
      have hmapEq : others.map (fun l =>
            countBytesCommon (strBytes (first.takeWhile rustIsWhitespace)) (strBytes l)) =
          others.map (fun l =>
            count_bytes_in_common (first.takeWhile rustIsWhitespace) l) := by
        apply List.map_congr_left
        intro l hl
        have hlMem : l ∈ rustLines s := by
          have hm : l ∈ (rustLines s).filter (fun q => ¬ isBlank q) := by
            rw [hf]
            exact List.mem_cons_of_mem _ hl
          exact (List.mem_filter.mp hm).1
        rw [strBytes_ascii _ hpfxA, strBytes_ascii _ (hlineA l hlMem), countBytesCommon_ascii]
      show (dropLinesBytes (((others.map (fun l =>
            countBytesCommon (strBytes (first.takeWhile rustIsWhitespace))
              (strBytes l))).min?).getD 0)
          (rustLines s)).map (fun ls => support_escape (trimChars (joinNl ls))) =
        some (support_escape (trimChars (joinNl ((rustLines s).map (fun line =>
          if isBlank line then line
          else line.drop (((others.map (fun l =>
            count_bytes_in_common (first.takeWhile rustIsWhitespace) l)).min?).getD 0))))))
      rw [hmapEq]
      have hbound : ∀ l ∈ rustLines s, isBlank l = false →
          ((others.map (fun q =>
            count_bytes_in_common (first.takeWhile rustIsWhitespace) q)).min?).getD 0 ≤
          l.length := by
        intro l hl hbl
        have hlf : l ∈ (rustLines s).filter (fun q => ¬ isBlank q) :=
          List.mem_filter.mpr ⟨hl, by simp [hbl]⟩
        rw [hf] at hlf
        rcases List.mem_cons.mp hlf with heq | hlo
        · subst heq
          cases others with
          | nil => simp
          | cons o os =>
            have hmem : count_bytes_in_common (l.takeWhile rustIsWhitespace) o ∈
                (o :: os).map (fun q =>
                  count_bytes_in_common (l.takeWhile rustIsWhitespace) q) :=
              List.mem_map_of_mem _ (List.mem_cons_self o os)
            have hle1 := min_getD_le hmem
            have hle2 : count_bytes_in_common (l.takeWhile rustIsWhitespace) o ≤
                (l.takeWhile rustIsWhitespace).length := count_le_left _ _
            have hle3 : (l.takeWhile rustIsWhitespace).length ≤ l.length :=
              (List.takeWhile_sublist _).length_le
            omega
        · have hmem : count_bytes_in_common (first.takeWhile rustIsWhitespace) l ∈
              others.map (fun q =>
                count_bytes_in_common (first.takeWhile rustIsWhitespace) q) :=
            List.mem_map_of_mem _ hlo
          have hle1 := min_getD_le hmem
          have hle2 : count_bytes_in_common (first.takeWhile rustIsWhitespace) l ≤
              l.length := count_le_right _ _
          omega
      rw [dropLinesBytes_ascii _ _ hlineA hbound]
      rfl

/-! ## Trimming around blank lines (the single-non-blank-line dedent) -/

/-- `dropWhile` jumps over a fully satisfying prefix. -/
theorem dropWhile_append_all (p : Char → Bool) :
    ∀ (a y : List Char), (∀ c ∈ a, p c = true) →
    (a ++ y).dropWhile p = y.dropWhile p := by
  intro a
  induction a with
  | nil => intro y _; rfl
  | cons x t ih =>
    intro y h
    rw [List.cons_append, List.dropWhile_cons, if_pos (h x (by simp))]
    exact ih y (fun c hc => h c (by simp [hc]))

/-- A fully whitespace prefix does not affect trimming. -/
theorem trim_append_ws_left (a y : List Char) (h : ∀ c ∈ a, rustIsWhitespace c = true) :
    trimChars (a ++ y) = trimChars y := by
  unfold trimChars
  rw [dropWhile_append_all rustIsWhitespace a y h]

/-- `dropWhile` of an all-satisfying list is empty. -/
theorem dropWhile_all (p : Char → Bool) (a : List Char) (h : ∀ c ∈ a, p c = true) :
    a.dropWhile p = [] := by
  have h2 := dropWhile_append_all p a [] h
  simpa using h2

/-- A fully whitespace suffix does not affect trimming. -/
theorem trim_append_ws_right (x b : List Char) (h : ∀ c ∈ b, rustIsWhitespace c = true) :
    trimChars (x ++ b) = trimChars x := by
  unfold trimChars
  rw [List.dropWhile_append]
  by_cases hx : (x.dropWhile rustIsWhitespace).isEmpty
  · rw [if_pos hx, dropWhile_all rustIsWhitespace b h]
    have hx2 : x.dropWhile rustIsWhitespace = [] := by
      simpa using hx
    rw [hx2]
  · rw [if_neg hx, List.reverse_append,
      dropWhile_append_all rustIsWhitespace b.reverse
        (x.dropWhile rustIsWhitespace).reverse (fun c hc => h c (List.mem_reverse.mp hc))]

/-- Lines that are all blank join into pure whitespace. -/
theorem joinNl_all_ws (ls : List (List Char)) (h : ∀ q ∈ ls, isBlank q = true) :
    ∀ c ∈ joinNl ls, rustIsWhitespace c = true := by
  intro c hc
  rcases mem_joinNl ls c hc with hn | ⟨line, hline, hcl⟩
  · subst hn
    decide
  · exact isBlank_all_ws line (h line hline) c hcl

/-- `dropWhile` is idempotent. -/
theorem dropWhile_idem (p : Char → Bool) (l : List Char) :
    (l.dropWhile p).dropWhile p = l.dropWhile p := by
  rcases hd : l.dropWhile p with _ | ⟨c, t⟩
  · rfl
  · rw [List.dropWhile_cons, if_neg (by simp [dropWhile_head_false p l c t hd])]

/-- Trimming ignores an initial whitespace strip. -/
theorem trim_dropWhile (l : List Char) :
    trimChars (l.dropWhile rustIsWhitespace) = trimChars l := by
  unfold trimChars
  rw [dropWhile_idem]

/-- Dropping the whitespace-prefix length is `dropWhile`. -/
theorem drop_takeWhile_len (p : Char → Bool) :
    ∀ l : List Char, l.drop (l.takeWhile p).length = l.dropWhile p := by
  intro l
  induction l with
  | nil => rfl
  | cons c t ih =>
    by_cases h : p c
    · rw [List.takeWhile_cons, if_pos h, List.dropWhile_cons, if_pos h]
      simpa using ih
    · rw [List.takeWhile_cons, if_neg h, List.dropWhile_cons, if_neg h]
      rfl

/-- Blankness is stable under stripping the whitespace prefix. -/
theorem isBlank_dropWhile (l : List Char) :
    isBlank (l.dropWhile rustIsWhitespace) = isBlank l := by
  simp [isBlank, trim_dropWhile]

/-- Filtering the non-blank lines commutes with a map that fixes blank
lines and preserves non-blankness. -/
theorem filter_map_blankpres (f : List Char → List Char)
    (h1 : ∀ l, isBlank l = true → f l = l) :
    ∀ ls : List (List Char),
    (∀ l ∈ ls, isBlank l = false → isBlank (f l) = false) →
    (ls.map f).filter (fun l => ¬ isBlank l) =
      (ls.filter (fun l => ¬ isBlank l)).map f := by
  intro ls
  induction ls with
  | nil => intro _; rfl
  | cons l rest ih =>
    intro h2
    have hr := ih (fun q hq hqb => h2 q (by simp [hq]) hqb)
    by_cases hb : isBlank l
    · simp only [List.map_cons, List.filter_cons]
      rw [h1 l hb, if_neg (by simp [hb]), if_neg (by simp [hb])]
      exact hr
    · have hbf : isBlank l = false := by simpa using hb
      have hfb := h2 l (by simp) hbf
      simp only [List.map_cons, List.filter_cons]
      rw [if_pos (by simp [hfb]), if_pos (by simp [hbf]), List.map_cons, hr]

/-- Joining lines of which exactly one is non-blank trims to that line's
trim: the blank lines and separators are all whitespace. -/
theorem trim_join_single : ∀ (ls : List (List Char)) (L : List Char),
    ls.filter (fun l => ¬ isBlank l) = [L] → trimChars (joinNl ls) = trimChars L := by
  intro ls
  induction ls with
  | nil =>
    intro L h
    simp at h
  | cons l rest ih =>
    intro L h
    by_cases hb : isBlank l
    · have hrest : rest.filter (fun q => ¬ isBlank q) = [L] := by
        simpa [List.filter_cons, hb] using h
      cases rest with
      | nil => exact absurd hrest (by simp)
      | cons r2 t2 =>
        have hjoin : joinNl (l :: r2 :: t2) = (l ++ (['\n'] : List Char)) ++ joinNl (r2 :: t2) := by
          show l ++ '\n' :: joinNl (r2 :: t2) = _
          simp
        have hws : ∀ c ∈ l ++ (['\n'] : List Char), rustIsWhitespace c = true := by
          intro c hc
          rcases List.mem_append.mp hc with hcl | hcl
          · exact isBlank_all_ws l hb c hcl
          · simp at hcl
            subst hcl
            decide
        rw [hjoin, trim_append_ws_left _ _ hws]
        exact ih L hrest
    · have hcons : l :: rest.filter (fun q => ¬ isBlank q) = [L] := by
        simpa [List.filter_cons, hb] using h
      obtain ⟨rfl, hrest0⟩ : l = L ∧ rest.filter (fun q => ¬ isBlank q) = [] :=
        ⟨(List.cons_eq_cons.mp hcons).1, (List.cons_eq_cons.mp hcons).2⟩
      have hallb : ∀ q ∈ rest, isBlank q = true := by
        intro q hq
        by_contra hqb
        have hmem : q ∈ rest.filter (fun q2 => ¬ isBlank q2) :=
          List.mem_filter.mpr ⟨hq, by simpa using hqb⟩
        rw [hrest0] at hmem
        simp at hmem
      cases rest with
      | nil => rfl
      | cons r2 t2 =>
        have hjoin : joinNl (l :: r2 :: t2) = l ++ ('\n' :: joinNl (r2 :: t2)) := rfl
        have hws : ∀ c ∈ ('\n' :: joinNl (r2 :: t2)), rustIsWhitespace c = true := by
          intro c hc
          rcases List.mem_cons.mp hc with hcl | hcl
          · subst hcl
            decide
          · exact joinNl_all_ws (r2 :: t2) hallb c hcl
        rw [hjoin, trim_append_ws_right l _ hws]

/-- The multi-line branch of `convertChars` equals the spec-side
`dedentSpec` followed by escape processing, for every multi-line string:
with no non-blank line both are empty; with exactly one non-blank line
the code strips nothing and trims while the spec strips that line's own
whitespace prefix and trims, which agree; with two or more non-blank
lines the minimum over the other lines equals the minimum over all of
them, because the first line is in full common with its own prefix. -/
theorem convertChars_dedentSpec : ∀ s : List Char, (rustLines s).length ≠ 1 →
    convertChars s = support_escape (dedentSpec s) := by
  intro s h1
  unfold convertChars dedentSpec
  rw [if_neg h1]
  rcases hf : (rustLines s).filter (fun l => ¬ isBlank l) with _ | ⟨first, others⟩
  · rfl
  · rcases others with _ | ⟨b, bs⟩
    · simp only
      have hz : ((([] : List (List Char)).map (fun l =>
          count_bytes_in_common (first.takeWhile rustIsWhitespace) l)).min?).getD 0 = 0 := rfl
      rw [hz]
      have hmap0 : (rustLines s).map
          (fun line => if isBlank line then line else line.drop 0) = rustLines s := by
        have h0 : ∀ line ∈ rustLines s,
            (if isBlank line then line else line.drop 0) = id line := by
          intro line _
          by_cases hbl : isBlank line <;> simp [hbl]
        rw [List.map_congr_left h0, List.map_id]
      rw [hmap0]
      have hc1 : (([first].map (fun l =>
          count_bytes_in_common (first.takeWhile rustIsWhitespace) l)).min?).getD 0 =
          (first.takeWhile rustIsWhitespace).length := by
        simp [List.min?, count_takeWhile]
      rw [hc1]
      have hnb : isBlank first = false := by
        have hm : first ∈ (rustLines s).filter (fun q => ¬ isBlank q) := by
          rw [hf]
          exact List.mem_cons_self _ _
        simpa using (List.mem_filter.mp hm).2
      have hfb : isBlank (first.drop (first.takeWhile rustIsWhitespace).length) = false := by
        rw [drop_takeWhile_len, isBlank_dropWhile]
        exact hnb
      have hpres : ∀ l ∈ rustLines s, isBlank l = false →
          isBlank (if isBlank l then l
            else l.drop (first.takeWhile rustIsWhitespace).length) = false := by
        intro l hl hbl
        have hm : l ∈ (rustLines s).filter (fun q => ¬ isBlank q) :=
          List.mem_filter.mpr ⟨hl, by simp [hbl]⟩
        rw [hf] at hm
        have heq : l = first := by simpa using hm
        subst heq
        rw [if_neg (by simp [hbl])]
        exact hfb
      have hfilter2 : ((rustLines s).map (fun line => if isBlank line then line
          else line.drop (first.takeWhile rustIsWhitespace).length)).filter
          (fun l => ¬ isBlank l) =
          [first.drop (first.takeWhile rustIsWhitespace).length] := by
        rw [filter_map_blankpres _ (fun q hq => by simp [hq]) (rustLines s) hpres, hf]
        simp [hnb]
      rw [trim_join_single (rustLines s) first hf, trim_join_single _ _ hfilter2,
        drop_takeWhile_len, trim_dropWhile]
    · simp only
      have hle : count_bytes_in_common (first.takeWhile rustIsWhitespace) b ≤
          count_bytes_in_common (first.takeWhile rustIsWhitespace) first := by
        rw [count_takeWhile]
        exact count_le_left _ _
      have hcommon :
          (((b :: bs).map
            (fun l => count_bytes_in_common (first.takeWhile rustIsWhitespace) l)).min?).getD 0 =
          (((first :: b :: bs).map
            (fun l => count_bytes_in_common (first.takeWhile rustIsWhitespace) l)).min?).getD 0 := by
        simp only [List.map_cons, List.min?, Option.getD_some, List.foldl_cons]
        rw [min_eq_right hle]
      rw [hcommon]

/-! ## C7 — string-literal dedenting -/

/-- C7: the code does not realize the claimed dedent on every string
literal — it panics on some multi-line inputs.  The byte-faithful model
`convert_to_dada_string_bytes` returns `none` (the panic) on the
multi-line string `"\u00A0a\n\u00A1b"`: both lines start with a
two-byte whitespace-led character, the common indent is counted in UTF-8
bytes as `1`, and the slice `&line[1..]` falls inside the two-byte
character.  Where no slice can split a character the claim's description
holds: a single-line string is only escape-processed, never dedented; an
ASCII multi-line string is dedented exactly as the spec-side `dedentSpec`
describes (common whitespace prefix with the first non-blank line
stripped from every non-blank line, blank lines kept, the whole trimmed)
and then escape-processed; and the claim's concrete example dedents to
`"hello\n  world"`. -/
theorem c7_string_dedent :
    (convert_to_dada_string_bytes ("\u00A0a\n\u00A1b") = none) ∧
    (∀ s : String, (rustLines s.data).length = 1 →
      convert_to_dada_string_bytes s = some ⟨support_escape s.data⟩) ∧
    (∀ s : String, (∀ c ∈ s.data, c.toNat < 128) → (rustLines s.data).length ≠ 1 →
      convert_to_dada_string_bytes s = some ⟨support_escape (dedentSpec s.data)⟩) ∧
    (convert_to_dada_string_bytes ("\n    hello\n      world\n    ") =
      some ("hello\n  world")) := by
  refine ⟨by decide, ?_, ?_, by decide⟩
  · intro s h
    show (convertCharsBytes s.data).map (fun l => (⟨l⟩ : String)) = _
    unfold convertCharsBytes
    rw [if_pos h]
    rfl
  · intro s hA h1
    show (convertCharsBytes s.data).map (fun l => (⟨l⟩ : String)) = _
    rw [convertCharsBytes_ascii s.data hA, convertChars_dedentSpec s.data h1]
    rfl

/-- Witness for C7: a single-line string passes through unchanged, and
the claim's example satisfies the ASCII multi-line side conditions and
the spec-side characterization. -/
theorem c7_string_dedent_witness :
    (rustLines (("abc") : String).data).length = 1 ∧
    convert_to_dada_string_bytes ("abc") = some ⟨support_escape (("abc") : String).data⟩ ∧
    (∀ c ∈ (("\n    hello\n      world\n    ") : String).data, c.toNat < 128) ∧
    (rustLines (("\n    hello\n      world\n    ") : String).data).length ≠ 1 ∧
    convert_to_dada_string_bytes ("\n    hello\n      world\n    ") =
      some ⟨support_escape (dedentSpec (("\n    hello\n      world\n    ") : String).data)⟩ := by
  refine ⟨by decide, c7_string_dedent.2.1 ("abc") (by decide), by decide, by decide,
    c7_string_dedent.2.2.1 ("\n    hello\n      world\n    ") (by decide) (by decide)⟩

/-- C8 (amended): for every multi-line string with no backslash, no
carriage return and only ASCII characters, `convert_to_dada_string` is
idempotent; on that domain the char-granularity model provably agrees
with the byte-faithful one, both on the input and on the output, so the
equation describes runs the real program completes.  The claim as stated
over all multi-line strings is false: escape-sequence processing is
applied on each pass, so a string containing `\\` escapes differently on
the second pass — see the counterexample — and a line ending in a stray
`\r` is rejoined as `\r\n` and re-split differently; moreover off ASCII
the program can panic mid-dedent (see the C7 theorem), so no equation
describes those runs at all. -/
theorem c8_dedent_idempotent_no_escapes (s : String)
    (h : ∀ c ∈ s.data, c ≠ '\\' ∧ c ≠ '\r' ∧ c.toNat < 128)
    (hml : (rustLines s.data).length ≠ 1) :
    convert_to_dada_string (convert_to_dada_string s) = convert_to_dada_string s ∧
    convert_to_dada_string_bytes s = some (convert_to_dada_string s) ∧
    convert_to_dada_string_bytes (convert_to_dada_string s) =
      some (convert_to_dada_string s) := by
  have key : convertChars (convertChars s.data) = convertChars s.data := by
    rcases convert_output_form s.data hml with hz | ⟨b, hb, hsub⟩
    · rw [hz]
      decide
    · have hbprops : ∀ c ∈ trimChars b, c ≠ '\\' ∧ c ≠ '\r' := by
        intro c hc
        rcases hsub c (trim_subset b c hc) with h1 | h1
        · exact ⟨(h c h1).1, (h c h1).2.1⟩
        · subst h1
          exact ⟨by decide, by decide⟩
      have hesc : support_escape (trimChars b) = trimChars b :=
        support_escape_id _ (fun c hc => (hbprops c hc).1)
      rw [hb, hesc]
      apply convert_fixed
      · exact fun c hc => (hbprops c hc).1
      · exact fun hc => (hbprops '\r' hc).2 rfl
      · exact fun c hcH => trim_head_false b c hcH
      · exact fun c hcL => trim_getLast_false b c hcL
  have houtA : ∀ c ∈ convertChars s.data, c.toNat < 128 := by
    rcases convert_output_form s.data hml with hz | ⟨b, hb, hsub⟩
    · rw [hz]
      intro c hc
      simp at hc
    · rw [hb]
      intro c hc
      have hbprops2 : ∀ d ∈ trimChars b, d ≠ '\\' := by
        intro d hd
        rcases hsub d (trim_subset b d hd) with h1 | h1
        · exact (h d h1).1
        · subst h1
          decide
      rw [support_escape_id _ hbprops2] at hc
      rcases hsub c (trim_subset b c hc) with h1 | h1
      · exact (h c h1).2.2
      · subst h1
        decide
  refine ⟨?_, ?_, ?_⟩
  · show String.mk (convertChars (convertChars s.data)) = String.mk (convertChars s.data)
    rw [key]
  · show (convertCharsBytes s.data).map (fun l => (⟨l⟩ : String)) = _
    rw [convertCharsBytes_ascii s.data (fun c hc => (h c hc).2.2)]
    rfl
  · show (convertCharsBytes (convertChars s.data)).map (fun l => (⟨l⟩ : String)) = _
    rw [convertCharsBytes_ascii _ houtA, key]
    rfl

/-- Counterexample to C8 as stated: the multi-line string `a\\nb` + `\n` +
`c` (with a literal backslash-backslash-n in the first line) is not a
fixed point of double dedenting — the first pass rewrites `\\` to `\`,
and the second pass then rewrites the resulting `\n` to a newline. -/
theorem c8_escape_double_processing_counterexample :
    (rustLines (("a\\\\nb\nc") : String).data).length ≠ 1 ∧
    convertChars (convertChars (("a\\\\nb\nc") : String).data) ≠
      convertChars (("a\\\\nb\nc") : String).data := by
  exact ⟨by decide, by decide⟩

/-- Witness for C8 at the concrete multi-line, backslash-free, ASCII
example string from the spec. -/
theorem c8_dedent_idempotent_no_escapes_witness :
    (∀ c ∈ (("\n    hello\n      world\n    ") : String).data,
      c ≠ '\\' ∧ c ≠ '\r' ∧ c.toNat < 128) ∧
    (rustLines (("\n    hello\n      world\n    ") : String).data).length ≠ 1 ∧
    convert_to_dada_string (convert_to_dada_string ("\n    hello\n      world\n    ")) =
      convert_to_dada_string ("\n    hello\n      world\n    ") := by
  refine ⟨by decide, by decide, ?_⟩
  exact (c8_dedent_idempotent_no_escapes ("\n    hello\n      world\n    ")
    (by decide) (by decide)).1

/-! ## C6 — named-argument checking: supporting lemmas

The check loop of the `Call` arm reads the argument labels back from the
interning tables after all arguments are validated, so we first prove that
validation only ever appends to the named-expression table (the sole
writer is `validate_named_expr`), making earlier entries stable. -/

@[simp] theorem addExpr_ne (st : St) (syn : Bool) (d : VExprData) (o : ExprOrigin) :
    (st.addExpr syn d o).2.namedExprs = st.namedExprs := rfl

@[simp] theorem addPlace_ne (st : St) (syn : Bool) (d : VPlaceData) (o : ExprOrigin) :
    (st.addPlace syn d o).2.namedExprs = st.namedExprs := rfl

@[simp] theorem addTargetPlace_ne (st : St) (syn : Bool) (d : VTargetPlaceData)
    (o : ExprOrigin) : (st.addTargetPlace syn d o).2.namedExprs = st.namedExprs := rfl

@[simp] theorem addLocalVariable_ne (st : St) (d : LocalVariableData) (o : LvOrigin) :
    (st.addLocalVariable d o).2.namedExprs = st.namedExprs := rfl

@[simp] theorem addDiag_ne (st : St) (d : Diag) : (st.addDiag d).namedExprs = st.namedExprs :=
  rfl

@[simp] theorem addDiags_ne (st : St) (ds : List Diag) :
    (st.addDiags ds).namedExprs = st.namedExprs := rfl

@[simp] theorem setExpr_ne (st : St) (i : Nat) (d : VExprData) :
    (st.setExpr i d).namedExprs = st.namedExprs := rfl

@[simp] theorem addNamedExpr_ne (st : St) (d : VNamedExprData) (o : SynNamedExpr) :
    (st.addNamedExpr d o).2.namedExprs = st.namedExprs ++ [d] := rfl

@[simp] theorem empty_tuple_ne (syn : Bool) (st : St) (o : SynExpr) :
    (empty_tuple syn st o).2.namedExprs = st.namedExprs := rfl

@[simp] theorem store_ne (syn : Bool) (sc : Scope) (st : St) (v : Nat) :
    (store_validated_expr_in_temporary syn sc st v).2.2.namedExprs = st.namedExprs := rfl

@[simp] theorem seq_ne (syn : Bool) (st : St) (es : List Nat) (f : Nat) :
    (seq syn st es f).2.namedExprs = st.namedExprs := by
  unfold seq
  split <;> rfl

@[simp] theorem or_error_ne (syn : Bool) (st : St) (d : Option Nat) (o : SynExpr) :
    (or_error syn st d o).2.namedExprs = st.namedExprs := by
  unfold or_error
  split <;> rfl

@[simp] theorem exitScope_ne (syn : Bool) (sc : Scope) (st : St) (r : Nat) :
    (exitScope syn sc st r).2.namedExprs = st.namedExprs := by
  unfold exitScope
  split
  · rfl
  · split <;> rfl

@[simp] theorem place_to_expr_ne (syn : Bool) (st : St) (data : Option (Option Nat × Nat))
    (o : ExprOrigin) (m : ExprMode) :
    (place_to_expr syn st data o m).2.namedExprs = st.namedExprs := by
  unfold place_to_expr
  rcases data with _ | ⟨opt, p⟩
  · rfl
  · rcases m with s | _
    · cases s <;> simp
    · simp

/-- Validation only appends to the named-expression table: anything that
was a prefix of the table before running any function of the mutual
validator block is still a prefix afterwards. -/
theorem namedExprs_mono : ∀ fuel : Nat,
    (∀ ctx (e : SynExpr) m sc st (base : List VNamedExprData),
      base <+: st.namedExprs →
      base <+: (validate_expr_in_mode fuel ctx e m sc st).2.2.namedExprs) ∧
    (∀ ctx (es : List SynExpr) sc st (base : List VNamedExprData),
      base <+: st.namedExprs →
      base <+: (validate_exprs_give fuel ctx es sc st).2.2.namedExprs) ∧
    (∀ ctx (es : List SynExpr) sc st (base : List VNamedExprData),
      base <+: st.namedExprs →
      base <+: (validate_exprs_reserve fuel ctx es sc st).2.2.namedExprs) ∧
    (∀ ctx (nes : List SynNamedExpr) sc st (base : List VNamedExprData),
      base <+: st.namedExprs →
      base <+: (validate_named_exprs fuel ctx nes sc st).2.2.namedExprs) ∧
    (∀ ctx (ne : SynNamedExpr) sc st (base : List VNamedExprData),
      base <+: st.namedExprs →
      base <+: (validate_named_expr fuel ctx ne sc st).2.2.namedExprs) ∧
    (∀ ctx (e : SynExpr) sc st (base : List VNamedExprData),
      base <+: st.namedExprs →
      base <+: (validate_expr_as_place fuel ctx e sc st).2.2.namedExprs) ∧
    (∀ ctx (e : SynExpr) om sc st (base : List VNamedExprData),
      base <+: st.namedExprs →
      base <+: (validate_expr_as_target_place fuel ctx e om sc st).2.2.namedExprs) ∧
    (∀ ctx (oe le : SynExpr) op re sc st (base : List VNamedExprData),
      base <+: st.namedExprs →
      base <+: (validate_op_eq fuel ctx oe le op re sc st).2.2.namedExprs) ∧
    (∀ ctx tp (ie oe : SynExpr) sc st (base : List VNamedExprData),
      base <+: st.namedExprs →
      base <+: (validated_assignment fuel ctx tp ie oe sc st).2.2.namedExprs) ∧
    (∀ ctx (pe te : SynExpr) k sc st (base : List VNamedExprData),
      base <+: st.namedExprs →
      base <+: (validate_permission_expr fuel ctx pe te k sc st).2.2.namedExprs) := by
  intro fuel
  induction fuel with
  | zero =>
    refine ⟨?_, ?_, ?_, ?_, ?_, ?_, ?_, ?_, ?_, ?_⟩ <;> intros <;> assumption
  | succ fuel IH =>
    obtain ⟨IH1, IH2, IH3, IH4, IH5, IH6, IH7, IH8, IH9, IH10⟩ := IH
    refine ⟨?_, ?_, ?_, ?_, ?_, ?_, ?_, ?_, ?_, ?_⟩
    · -- validate_expr_in_mode
      intro ctx e m sc st base h
      cases e
      case Dot owner field =>
        have h6 := IH6 ctx (SynExpr.Dot owner field) sc st base h
        rcases heq : validate_expr_as_place fuel ctx (SynExpr.Dot owner field) sc st
          with ⟨pl, sc1, st1⟩
        rw [heq] at h6
        simpa [validate_expr_in_mode, heq] using h6
      case Id name =>
        have h6 := IH6 ctx (SynExpr.Id name) sc st base h
        rcases heq : validate_expr_as_place fuel ctx (SynExpr.Id name) sc st
          with ⟨pl, sc1, st1⟩
        rw [heq] at h6
        simpa [validate_expr_in_mode, heq] using h6
      case BooleanLiteral b => exact h
      case IntegerLiteral w suffix =>
        simp only [validate_expr_in_mode]
        repeat' split
        all_goals exact h
      case FloatLiteral wi wf =>
        simp only [validate_expr_in_mode]
        split
        all_goals exact h
      case StringLiteral w => exact h
      case Await fut =>
        cases hE : ctx.effect <;> simp only [validate_expr_in_mode, hE, Effect.permits_await]
        · apply IH1
          exact h
        · apply IH1
          exact h
        · apply IH1
          exact h
      case Call funcExpr args =>
        apply IH4
        apply IH1
        exact h
      case Share t =>
        apply IH1
        exact h
      case Lease t =>
        apply IH10
        exact h
      case Shlease t =>
        apply IH10
        exact h
      case Give t =>
        cases hp : is_place_expression t <;> simp only [validate_expr_in_mode, hp]
        · simp only [Bool.false_eq_true, if_false]
          apply IH1
          exact h
        · simp only [if_true]
          apply IH10
          exact h
      case Var decl init =>
        simp only [validate_expr_in_mode]
        apply IH9
        exact h
      case Parenthesized p =>
        apply IH1
        exact h
      case Tuple elems =>
        apply IH3
        exact h
      case If c th els =>
        rcases h1 : validate_expr_in_mode fuel ctx c ExprMode.give sc st with ⟨vc, sc1, st1⟩
        have p1 : base <+: st1.namedExprs := by
          have := IH1 ctx c ExprMode.give sc st base h
          rwa [h1] at this
        rcases h2 : validate_expr_in_mode fuel ctx th m (Frame.empty :: sc1) st1
          with ⟨t0, scT, stT⟩
        have p2 : base <+: stT.namedExprs := by
          have := IH1 ctx th m (Frame.empty :: sc1) st1 base p1
          rwa [h2] at this
        cases els with
        | none => simpa [validate_expr_in_mode, h1, h2] using p2
        | some elseE =>
          rcases h3 : validate_expr_in_mode fuel ctx elseE m (Frame.empty :: sc1)
            (exitScope ctx.synthesized scT stT t0).2 with ⟨e0, scE, stE⟩
          have p3 : base <+: stE.namedExprs := by
            have := IH1 ctx elseE m (Frame.empty :: sc1)
              (exitScope ctx.synthesized scT stT t0).2 base (by simpa using p2)
            rwa [h3] at this
          simpa [validate_expr_in_mode, h1, h2, h3] using p3
      case Atomic body =>
        rcases h1 : validate_expr_in_mode fuel { ctx with effect := .Atomic } body m
          (Frame.empty :: sc) st with ⟨a0, scA, stA⟩
        have p1 : base <+: stA.namedExprs := by
          have := IH1 { ctx with effect := .Atomic } body m (Frame.empty :: sc) st base h
          rwa [h1] at this
        simpa [validate_expr_in_mode, h1] using p1
      case Loop body =>
        rcases h1 : validate_expr_in_mode fuel
          { ctx with loopStack := ctx.loopStack ++ [st.exprs.length] } body
          (.Specifier .My) (Frame.empty :: sc)
          (st.addExpr ctx.synthesized .Error (ExprOrigin.real (.Loop body))).2
          with ⟨b0, scB, stB⟩
        have p1 : base <+: stB.namedExprs := by
          have := IH1 { ctx with loopStack := ctx.loopStack ++ [st.exprs.length] } body
            (.Specifier .My) (Frame.empty :: sc)
            (st.addExpr ctx.synthesized .Error (ExprOrigin.real (.Loop body))).2 base h
          rwa [h1] at this
        simpa [validate_expr_in_mode, h1, St.setExpr] using p1
      case While c body =>
        rcases h1 : validate_expr_in_mode fuel ctx c ExprMode.give sc
          (st.addExpr ctx.synthesized .Error (ExprOrigin.real (.While c body))).2
          with ⟨vc, sc1, st2⟩
        have p1 : base <+: st2.namedExprs := by
          have := IH1 ctx c ExprMode.give sc
            (st.addExpr ctx.synthesized .Error (ExprOrigin.real (.While c body))).2 base h
          rwa [h1] at this
        rcases h2 : validate_expr_in_mode fuel
          { ctx with loopStack := ctx.loopStack ++ [st.exprs.length] } body m
          (Frame.empty :: sc1) st2 with ⟨b0, scB, stB⟩
        have p2 : base <+: stB.namedExprs := by
          have := IH1 { ctx with loopStack := ctx.loopStack ++ [st.exprs.length] } body m
            (Frame.empty :: sc1) st2 base p1
          rwa [h2] at this
        simpa [validate_expr_in_mode, h1, h2, St.setExpr] using p2
      case Op l o r =>
        apply IH1
        apply IH1
        exact h
      case Unary o r =>
        apply IH1
        exact h
      case OpEq l o r =>
        rcases heq : validate_op_eq fuel ctx (SynExpr.OpEq l o r) l o r sc st
          with ⟨res, sc1, st1⟩
        have p : base <+: st1.namedExprs := by
          have := IH8 ctx (SynExpr.OpEq l o r) l o r sc st base h
          rwa [heq] at this
        simpa [validate_expr_in_mode, heq] using p
      case Assign l r =>
        rcases heq : validate_expr_as_target_place fuel ctx l .Reserve sc st
          with ⟨res, sc1, st1⟩
        have p : base <+: st1.namedExprs := by
          have := IH7 ctx l .Reserve sc st base h
          rwa [heq] at this
        rcases res with _ | ⟨opt, pl⟩
        · simpa [validate_expr_in_mode, heq] using p
        · rcases h2 : validated_assignment fuel ctx pl r (SynExpr.Assign l r) sc1 st1
            with ⟨ae, sc2, st2⟩
          have p2 : base <+: st2.namedExprs := by
            have := IH9 ctx pl r (SynExpr.Assign l r) sc1 st1 base p
            rwa [h2] at this
          simpa [validate_expr_in_mode, heq, h2] using p2
      case Error => exact h
      case Seq exprs =>
        apply IH2
        exact h
      case Return withValue =>
        cases withValue with
        | none =>
          cases hrk : ctx.returnKind <;> simp only [validate_expr_in_mode, hrk] <;> exact h
        | some v =>
          cases hrk : ctx.returnKind <;> simp only [validate_expr_in_mode, hrk]
          · apply IH1
            exact h
          · apply IH1
            exact h
    · -- validate_exprs_give
      intro ctx es sc st base h
      cases es with
      | nil => exact h
      | cons e rest =>
        apply IH2
        apply IH1
        exact h
    · -- validate_exprs_reserve
      intro ctx es sc st base h
      cases es with
      | nil => exact h
      | cons e rest =>
        apply IH3
        apply IH1
        exact h
    · -- validate_named_exprs
      intro ctx nes sc st base h
      cases nes with
      | nil => exact h
      | cons ne rest =>
        apply IH4
        apply IH5
        exact h
    · -- validate_named_expr
      intro ctx ne sc st base h
      have h1 := IH1 ctx ne.2 .Reserve sc st base h
      exact h1.trans (List.prefix_append _ _)
    · -- validate_expr_as_place
      intro ctx e sc st base h
      cases e
      case Id name =>
        simp only [validate_expr_as_place]
        split <;> exact h
      case Dot owner field =>
        have h6 := IH6 ctx owner sc st base h
        rcases heq : validate_expr_as_place fuel ctx owner sc st with ⟨pl, sc1, st1⟩
        rw [heq] at h6
        rcases pl with _ | ⟨opt, p⟩ <;> simpa [validate_expr_as_place, heq] using h6
      case Parenthesized p =>
        apply IH6
        exact h
      case Error => exact h
      all_goals
        apply IH1
        exact h
    · -- validate_expr_as_target_place
      intro ctx e om sc st base h
      cases e
      case Dot owner field =>
        apply IH1
        exact h
      case Id name =>
        simp only [validate_expr_as_target_place]
        split <;> exact h
      case Parenthesized p =>
        apply IH7
        exact h
      all_goals
        apply IH1
        exact h
    · -- validate_op_eq
      intro ctx oe le op re sc st base h
      rcases heq : validate_expr_as_target_place fuel ctx le ExprMode.leased sc st
        with ⟨res, sc1, st1⟩
      have p : base <+: st1.namedExprs := by
        have := IH7 ctx le ExprMode.leased sc st base h
        rwa [heq] at this
      rcases res with _ | ⟨leaseOpt, tp⟩
      · simpa [validate_op_eq, heq] using p
      · simp only [validate_op_eq, heq, seq_ne, addExpr_ne, store_ne]
        apply IH1
        exact p
    · -- validated_assignment
      intro ctx tp ie oe sc st base h
      cases hp : is_place_expression ie <;> simp only [validated_assignment, hp]
      · simp only [Bool.false_eq_true, if_false]
        apply IH1
        exact h
      · simp only [if_true]
        have h6 := IH6 ctx ie sc st base h
        rcases heq : validate_expr_as_place fuel ctx ie sc st with ⟨pl, sc1, st1⟩
        rw [heq] at h6
        rcases pl with _ | ⟨opt, ipl⟩ <;> simpa [heq] using h6
    · -- validate_permission_expr
      intro ctx pe te k sc st base h
      have h6 := IH6 ctx te sc st base h
      rcases heq : validate_expr_as_place fuel ctx te sc st with ⟨pl, sc1, st1⟩
      rw [heq] at h6
      rcases pl with _ | ⟨opt, p⟩ <;> simpa [validate_permission_expr, heq] using h6

/-- Entries under a prefix are stable. -/
theorem prefix_getD_eq {α : Type} {l1 l2 : List α} (h : l1 <+: l2) (i : Nat)
    (hi : i < l1.length) (d : α) : l2.getD i d = l1.getD i d := by
  obtain ⟨t, rfl⟩ := h
  exact List.getD_append _ _ _ _ hi

/-- The ids returned by `validate_named_exprs` point, in its final tables,
at entries carrying exactly the source argument labels (provided the fuel
covers the argument list). -/
theorem validate_named_exprs_names :
    ∀ (args : List SynNamedExpr) (fuel : Nat) (ctx : Ctx) (sc : Scope) (st : St),
    args.length < fuel →
    ((validate_named_exprs fuel ctx args sc st).1).map
      (fun i => ((validate_named_exprs fuel ctx args sc st).2.2.namedExprAt i).name) =
    args.map (fun a => a.1) := by
  intro args
  induction args with
  | nil =>
    intro fuel ctx sc st hf
    match fuel, hf with
    | fuel + 1, _ => rfl
  | cons ne rest ih =>
    intro fuel ctx sc st hf
    match fuel, hf with
    | fuel + 1, hf =>
      have hlen : rest.length < fuel := by simpa using hf
      obtain ⟨fuel', rfl⟩ : ∃ f', fuel = f' + 1 := ⟨fuel - 1, by omega⟩
      rcases hv : validate_expr_in_mode fuel' ctx ne.2 .Reserve sc st with ⟨v0, sc1, st1⟩
      rcases hr : validate_named_exprs (fuel' + 1) ctx rest sc1
        (st1.addNamedExpr ⟨ne.1, v0⟩ ne).2 with ⟨ids, sc2, st2⟩
      have hmono : (st1.addNamedExpr ⟨ne.1, v0⟩ ne).2.namedExprs <+: st2.namedExprs := by
        have := ((namedExprs_mono (fuel' + 1)).2.2.2.1) ctx rest sc1
          (st1.addNamedExpr ⟨ne.1, v0⟩ ne).2
          (st1.addNamedExpr ⟨ne.1, v0⟩ ne).2.namedExprs (List.prefix_refl _)
        rwa [hr] at this
      have hhead : st2.namedExprAt st1.namedExprs.length = ⟨ne.1, v0⟩ := by
        unfold St.namedExprAt
        rw [prefix_getD_eq hmono st1.namedExprs.length (by simp) _]
        simp [St.addNamedExpr, getD_append_self]
      have ht := ih (fuel' + 1) ctx sc1 (st1.addNamedExpr ⟨ne.1, v0⟩ ne).2 hlen
      rw [hr] at ht
      have hne : validate_named_expr (fuel' + 1) ctx ne sc st =
          ((st1.addNamedExpr ⟨ne.1, v0⟩ ne).1, sc1, (st1.addNamedExpr ⟨ne.1, v0⟩ ne).2) := by
        show (let (v, sc1', st1') := validate_expr_in_mode fuel' ctx ne.2 .Reserve sc st
              let (r, st2') := st1'.addNamedExpr ⟨ne.1, v⟩ ne
              (r, sc1', st2')) = _
        rw [hv]
      have houter : validate_named_exprs (fuel' + 1 + 1) ctx (ne :: rest) sc st =
          ((st1.addNamedExpr ⟨ne.1, v0⟩ ne).1 :: ids, sc2, st2) := by
        show (let (v, sc1', st1') := validate_named_expr (fuel' + 1) ctx ne sc st
              let (vs, sc2', st2') := validate_named_exprs (fuel' + 1) ctx rest sc1' st1'
              ((v :: vs : List Nat), sc2', st2')) = _
        rw [hne]
        show (let (vs, sc2', st2') := validate_named_exprs (fuel' + 1) ctx rest sc1
                (st1.addNamedExpr ⟨ne.1, v0⟩ ne).2
              (((st1.addNamedExpr ⟨ne.1, v0⟩ ne).1 :: vs : List Nat), sc2', st2')) = _
        rw [hr]
      rw [houter]
      simp only [List.map_cons]
      exact congrArg₂ List.cons (congrArg VNamedExprData.name hhead) ht

/-- Diagnostic indices emitted by the check loop are at least the running
index. -/
theorem nameCheckGo_ge :
    ∀ (names : List (Option String)) (req : Bool) (idx m : Nat),
    Diag.ParameterNameRequired m ∈ nameCheckGo req idx names → idx ≤ m := by
  intro names
  induction names with
  | nil => intro req idx m h; simp [nameCheckGo] at h
  | cons n rest ih =>
    intro req idx m h
    cases n with
    | some s =>
      have := ih true (idx + 1) m (by simpa [nameCheckGo] using h)
      omega
    | none =>
      simp only [nameCheckGo, List.mem_append] at h
      rcases h with h | h
      · rcases hreq : req with _ | _
        · rw [hreq] at h; simp at h
        · rw [hreq] at h
          simp at h
          omega
      · have := ih req (idx + 1) m h
        omega

/-- Membership characterization of the check loop: the diagnostic for
position `idx + k` is emitted exactly when the label at offset `k` is
missing and either the latch was already set or an earlier offset has a
label. -/
theorem mem_nameCheckGo :
    ∀ (names : List (Option String)) (req : Bool) (idx k : Nat),
    (Diag.ParameterNameRequired (idx + k) ∈ nameCheckGo req idx names ↔
      (k < names.length ∧ names.getD k none = none ∧
        (req = true ∨ ∃ j, j < k ∧ (names.getD j none).isSome))) := by
  intro names
  induction names with
  | nil => intro req idx k; simp [nameCheckGo]
  | cons n rest ih =>
    intro req idx k
    cases n with
    | some s =>
      simp only [nameCheckGo]
      cases k with
      | zero =>
        constructor
        · intro h
          have := nameCheckGo_ge rest true (idx + 1) (idx + 0) h
          omega
        · intro ⟨_, h2, _⟩
          simp at h2
      | succ k' =>
        have harith : idx + (k' + 1) = (idx + 1) + k' := by omega
        rw [harith, ih true (idx + 1) k']
        constructor
        · intro ⟨h1, h2, _⟩
          refine ⟨by simpa using Nat.succ_lt_succ h1, by simpa using h2,
            Or.inr ⟨0, by omega, by simp⟩⟩
        · intro ⟨h1, h2, _⟩
          exact ⟨by simpa using Nat.lt_of_succ_lt_succ (by simpa using h1),
            by simpa using h2, Or.inl rfl⟩
    | none =>
      simp only [nameCheckGo, List.mem_append]
      cases k with
      | zero =>
        constructor
        · intro h
          rcases h with h | h
          · rcases hreq : req with _ | _
            · rw [hreq] at h; simp at h
            · exact ⟨by simp, by simp, Or.inl rfl⟩
          · have := nameCheckGo_ge rest req (idx + 1) (idx + 0) h
            omega
        · intro ⟨_, _, h3⟩
          rcases h3 with h3 | ⟨j, hj, _⟩
          · subst h3
            left
            simp
          · omega
      | succ k' =>
        have harith : idx + (k' + 1) = (idx + 1) + k' := by omega
        rw [harith, ih req (idx + 1) k']
        have hcons : (∃ j, j < k' + 1 ∧ (((none : Option String) :: rest).getD j none).isSome)
            ↔ (∃ j, j < k' ∧ (rest.getD j none).isSome) := by
          constructor
          · intro ⟨j, hj, hs⟩
            cases j with
            | zero => simp at hs
            | succ j' => exact ⟨j', by omega, by simpa using hs⟩
          · intro ⟨j, hj, hs⟩
            exact ⟨j + 1, by omega, by simpa using hs⟩
        constructor
        · intro h
          rcases h with h | ⟨h1, h2, h3⟩
          · rcases hreq : req with _ | _
            · rw [hreq] at h; simp at h
            · rw [hreq] at h
              simp at h
              omega
          · refine ⟨by simpa using Nat.succ_lt_succ h1, by simpa using h2, ?_⟩
            rcases h3 with h3 | h3
            · exact Or.inl h3
            · exact Or.inr (hcons.mpr h3)
        · intro ⟨h1, h2, h3⟩
          right
          refine ⟨by simpa using Nat.lt_of_succ_lt_succ (by simpa using h1),
            by simpa using h2, ?_⟩
          rcases h3 with h3 | h3
          · exact Or.inl h3
          · exact Or.inr (hcons.mp h3)

/-- Reading the label of the argument at a position, through `map`. -/
theorem getD_map_fst :
    ∀ (args : List SynNamedExpr) (i : Nat),
    (args.map (fun a => a.1)).getD i none =
      (args.getD i ((none : Option String), SynExpr.Error)).1 := by
  intro args
  induction args with
  | nil => intro i; cases i <;> rfl
  | cons a rest ih =>
    intro i
    cases i with
    | zero => rfl
    | succ i' => simpa using ih i'

/-- C6: In validating a call `f(args...)`, the `Call` arm validates the
callee in reserve mode, validates every argument in reserve mode
(`validate_named_expr` hands each argument expression to
`validate_expr_in_mode` with mode `Reserve`), and interns a `Call` node
holding one validated argument per syntactic argument.  The diagnostic
"parameter name required" is emitted on argument `k` exactly when that
argument is unnamed and some earlier argument of the same call is
named. -/
theorem c6_call_named_args
    (fuel : Nat) (ctx : Ctx) (funcExpr : SynExpr) (args : List SynNamedExpr)
    (m : ExprMode) (sc : Scope) (st : St) (hfuel : args.length < fuel) :
    (validate_expr_in_mode (fuel + 1) ctx (SynExpr.Call funcExpr args) m sc st =
      (let (vfunc, sc1, st1) := validate_expr_in_mode fuel ctx funcExpr ExprMode.Reserve sc st
       let (ids, sc2, st2) := validate_named_exprs fuel ctx args sc1 st1
       let st3 := st2.addDiags (nameCheckSt st2 ids)
       let (r, st4) := st3.addExpr ctx.synthesized (VExprData.Call vfunc ids)
         (ExprOrigin.real (SynExpr.Call funcExpr args))
       (r, sc2, st4))) ∧
    (∀ (f2 : Nat) (ctx2 : Ctx) (ne : SynNamedExpr) (sc0 : Scope) (st0 : St),
      validate_named_expr (f2 + 1) ctx2 ne sc0 st0 =
        (let (v, sc1, st1) := validate_expr_in_mode f2 ctx2 ne.2 ExprMode.Reserve sc0 st0
         let (r, st2) := st1.addNamedExpr ⟨ne.1, v⟩ ne
         (r, sc1, st2))) ∧
    (∀ (vfunc : Nat) (sc1 : Scope) (st1 : St) (ids : List Nat) (sc2 : Scope) (st2 : St),
      validate_expr_in_mode fuel ctx funcExpr ExprMode.Reserve sc st = (vfunc, sc1, st1) →
      validate_named_exprs fuel ctx args sc1 st1 = (ids, sc2, st2) →
      ((validate_expr_in_mode (fuel + 1) ctx (SynExpr.Call funcExpr args) m sc st).2.2.exprAt
          (validate_expr_in_mode (fuel + 1) ctx (SynExpr.Call funcExpr args) m sc st).1 =
        VExprData.Call vfunc ids) ∧
      ids.length = args.length ∧
      (∀ k : Nat,
        Diag.ParameterNameRequired k ∈ nameCheckSt st2 ids ↔
          (k < args.length ∧
            (args.getD k ((none : Option String), SynExpr.Error)).1 = none ∧
            ∃ j, j < k ∧ ((args.getD j ((none : Option String), SynExpr.Error)).1).isSome))) := by
  refine ⟨rfl, fun f2 ctx2 ne sc0 st0 => rfl, ?_⟩
  intro vfunc sc1 st1 ids sc2 st2 h1 h2
  have hA : validate_expr_in_mode (fuel + 1) ctx (SynExpr.Call funcExpr args) m sc st =
      (((st2.addDiags (nameCheckSt st2 ids)).addExpr ctx.synthesized (VExprData.Call vfunc ids)
          (ExprOrigin.real (SynExpr.Call funcExpr args))).1,
        sc2,
        ((st2.addDiags (nameCheckSt st2 ids)).addExpr ctx.synthesized (VExprData.Call vfunc ids)
          (ExprOrigin.real (SynExpr.Call funcExpr args))).2) := by
    show (let (vf, sc1a, st1a) := validate_expr_in_mode fuel ctx funcExpr ExprMode.Reserve sc st
          let (idsa, sc2a, st2a) := validate_named_exprs fuel ctx args sc1a st1a
          let st3 := st2a.addDiags (nameCheckSt st2a idsa)
          let (r, st4) := st3.addExpr ctx.synthesized (VExprData.Call vf idsa)
            (ExprOrigin.real (SynExpr.Call funcExpr args))
          (r, sc2a, st4)) = _
    rw [h1]
    show (let (idsa, sc2a, st2a) := validate_named_exprs fuel ctx args sc1 st1
          let st3 := st2a.addDiags (nameCheckSt st2a idsa)
          let (r, st4) := st3.addExpr ctx.synthesized (VExprData.Call vfunc idsa)
            (ExprOrigin.real (SynExpr.Call funcExpr args))
          (r, sc2a, st4)) = _
    rw [h2]
  have hnames0 := validate_named_exprs_names args fuel ctx sc1 st1 hfuel
  rw [h2] at hnames0
  have hnames : ids.map (fun i => (st2.namedExprAt i).name) = args.map (fun a => a.1) :=
    hnames0
  refine ⟨?_, ?_, ?_⟩
  · rw [hA]
    simp
  · have hlen := congrArg List.length hnames
    simpa using hlen
  · intro k
    have hst : nameCheckSt st2 ids = nameCheckGo false 0 (args.map (fun a => a.1)) := by
      show nameCheckGo false 0 (ids.map (fun i => (st2.namedExprAt i).name)) = _
      rw [hnames]
    have hmem := mem_nameCheckGo (args.map (fun a => a.1)) false 0 k
    rw [Nat.zero_add] at hmem
    rw [hst, hmem]
    simp only [List.length_map, getD_map_fst]
    constructor
    · rintro ⟨hk, hn, hor⟩
      rcases hor with hf | hj
      · exact absurd hf (by simp)
      · exact ⟨hk, hn, hj⟩
    · rintro ⟨hk, hn, hj⟩
      exact ⟨hk, hn, Or.inr hj⟩

/-- Concrete run for the call check: in `f(a: true, true)` the second
argument is unnamed after a named one, so "parameter name required" is
emitted at index 1. -/
theorem c6_call_named_args_witness :
    ([((some ("a") : Option String), SynExpr.BooleanLiteral true),
      ((none : Option String), SynExpr.BooleanLiteral true)] : List SynNamedExpr).length < 4 ∧
    Diag.ParameterNameRequired 1 ∈
      nameCheckSt
        (validate_named_exprs 4 ctx0
          [((some ("a") : Option String), SynExpr.BooleanLiteral true),
           ((none : Option String), SynExpr.BooleanLiteral true)]
          (validate_expr_in_mode 4 ctx0 (SynExpr.Id ("f")) ExprMode.Reserve scX St.empty).2.1
          (validate_expr_in_mode 4 ctx0 (SynExpr.Id ("f")) ExprMode.Reserve scX St.empty).2.2).2.2
        (validate_named_exprs 4 ctx0
          [((some ("a") : Option String), SynExpr.BooleanLiteral true),
           ((none : Option String), SynExpr.BooleanLiteral true)]
          (validate_expr_in_mode 4 ctx0 (SynExpr.Id ("f")) ExprMode.Reserve scX St.empty).2.1
          (validate_expr_in_mode 4 ctx0 (SynExpr.Id ("f")) ExprMode.Reserve scX St.empty).2.2).1 := by
  refine ⟨by decide, ?_⟩
  have h := (c6_call_named_args 4 ctx0 (SynExpr.Id ("f"))
      [((some ("a") : Option String), SynExpr.BooleanLiteral true),
       ((none : Option String), SynExpr.BooleanLiteral true)] ExprMode.give scX St.empty
      (by decide)).2.2
      (validate_expr_in_mode 4 ctx0 (SynExpr.Id ("f")) ExprMode.Reserve scX St.empty).1
      (validate_expr_in_mode 4 ctx0 (SynExpr.Id ("f")) ExprMode.Reserve scX St.empty).2.1
      (validate_expr_in_mode 4 ctx0 (SynExpr.Id ("f")) ExprMode.Reserve scX St.empty).2.2
      (validate_named_exprs 4 ctx0
        [((some ("a") : Option String), SynExpr.BooleanLiteral true),
         ((none : Option String), SynExpr.BooleanLiteral true)]
        (validate_expr_in_mode 4 ctx0 (SynExpr.Id ("f")) ExprMode.Reserve scX St.empty).2.1
        (validate_expr_in_mode 4 ctx0 (SynExpr.Id ("f")) ExprMode.Reserve scX St.empty).2.2).1
      (validate_named_exprs 4 ctx0
        [((some ("a") : Option String), SynExpr.BooleanLiteral true),
         ((none : Option String), SynExpr.BooleanLiteral true)]
        (validate_expr_in_mode 4 ctx0 (SynExpr.Id ("f")) ExprMode.Reserve scX St.empty).2.1
        (validate_expr_in_mode 4 ctx0 (SynExpr.Id ("f")) ExprMode.Reserve scX St.empty).2.2).2.1
      (validate_named_exprs 4 ctx0
        [((some ("a") : Option String), SynExpr.BooleanLiteral true),
         ((none : Option String), SynExpr.BooleanLiteral true)]
        (validate_expr_in_mode 4 ctx0 (SynExpr.Id ("f")) ExprMode.Reserve scX St.empty).2.1
        (validate_expr_in_mode 4 ctx0 (SynExpr.Id ("f")) ExprMode.Reserve scX St.empty).2.2).2.2
      rfl rfl
  exact (h.2.2 1).mpr ⟨by decide, rfl, 0, by decide, rfl⟩

end Dada
